import Mathlib

/-!
Verification of `gcp_souli_1` (YouTube-transcript → EnergyNode extraction).

Shallow embedding of:
  * `app/services/extractor.py` — `_extract_json_array`, `_call_llm_and_parse`
    (tenacity retry), `_validate_nodes`, `extract_energy_nodes`;
  * `app/services/text_utils.py` — `truncate_transcript`;
  * `app/models/metadata.py` — `DiagnosticLayer`, `Pillars`, `Atmosphere`,
    `EnergyNode`, `EnergyNode.embed_text`.

Python strings are modelled as `List Char`; Python's `json` module
(`json.loads` and serialization) is modelled by an executable fueled
recursive-descent parser (`loads`) and a serializer (`dumps`) over a JSON
value type `J`.  JSON numbers are kept exact as a decimal mantissa/exponent
pair (the float rounding performed by Python is not modelled; all claims
below are insensitive to it).  Lone UTF-16 surrogates inside `\uXXXX`
escapes, which Python would keep as unpaired surrogate code units, are not
representable in `Char` and make the modelled parser fail; no claim depends
on such inputs.
-/

set_option maxHeartbeats 1000000

namespace Souli

/-- Backtick character (0x60). -/
def bt : Char := Char.ofNat 96

/-- Left curly brace (0x7b). -/
def lcb : Char := Char.ofNat 123

/-- Right curly brace (0x7d). -/
def rcb : Char := Char.ofNat 125

/-- JSON values as produced by Python's `json.loads` (which by default also
accepts `NaN`, `Infinity`, `-Infinity`).  A number is the exact decimal
value `m * 10 ^ e` determined by its lexeme. -/
inductive J where
  | null : J
  | bool (b : Bool) : J
  | num (m e : Int) : J
  | str (s : String) : J
  | arr (l : List J) : J
  | obj (kvs : List (String × J)) : J
  | nan : J
  | inf : J
  | neginf : J

/-- JSON whitespace skipped between tokens by Python's scanner. -/
def isJsonWs (c : Char) : Bool := c = ' ' || c = '\t' || c = '\n' || c = '\r'

/-- Skip JSON whitespace. -/
def skipWs (l : List Char) : List Char := l.dropWhile isJsonWs

/-- Boolean prefix test on character lists. -/
def leadsWith : List Char → List Char → Bool
  | [], _ => true
  | _ :: _, [] => false
  | a :: as, b :: bs => a = b && leadsWith as bs

/-- Boolean substring (contiguous) test on character lists. -/
def containsSub (needle : List Char) : List Char → Bool
  | [] => leadsWith needle []
  | c :: tl => leadsWith needle (c :: tl) || containsSub needle tl

/-- Value of a hex digit, as accepted in `\uXXXX` escapes. -/
def hexVal : Char → Option Nat := fun c =>
  if c.isDigit then some (c.toNat - 48)
  else if 'a' ≤ c && c ≤ 'f' then some (c.toNat - 87)
  else if 'A' ≤ c && c ≤ 'F' then some (c.toNat - 55)
  else none

/-- Read four hex digits. -/
def hex4 : List Char → Option (Nat × List Char)
  | a :: b :: c :: d :: rest => do
    let x ← hexVal a
    let y ← hexVal b
    let z ← hexVal c
    let w ← hexVal d
    pure (4096 * x + 256 * y + 16 * z + w, rest)
  | _ => none

/-- Body of a JSON string literal after the opening quote (Python strict
mode: raw control characters are rejected).  `\uXXXX` escapes combine
surrogate pairs the way Python's decoder does; a lone surrogate makes the
modelled parser fail (see module comment).  One unit of fuel is used per
produced character. -/
def parseStrAux : Nat → List Char → Option (List Char × List Char)
  | 0, _ => none
  | fuel + 1, l =>
    match l with
    | [] => none
    | c :: rest =>
      if c = '"' then some ([], rest)
      else if c = '\\' then
        match rest with
        | [] => none
        | e :: r2 =>
          if e = '"' then (parseStrAux fuel r2).map (fun p => ('"' :: p.1, p.2))
          else if e = '\\' then (parseStrAux fuel r2).map (fun p => ('\\' :: p.1, p.2))
          else if e = '/' then (parseStrAux fuel r2).map (fun p => ('/' :: p.1, p.2))
          else if e = 'b' then (parseStrAux fuel r2).map (fun p => (Char.ofNat 8 :: p.1, p.2))
          else if e = 'f' then (parseStrAux fuel r2).map (fun p => (Char.ofNat 12 :: p.1, p.2))
          else if e = 'n' then (parseStrAux fuel r2).map (fun p => ('\n' :: p.1, p.2))
          else if e = 'r' then (parseStrAux fuel r2).map (fun p => ('\r' :: p.1, p.2))
          else if e = 't' then (parseStrAux fuel r2).map (fun p => ('\t' :: p.1, p.2))
          else if e = 'u' then
            match hex4 r2 with
            | none => none
            | some (n, r3) =>
              if n < 55296 || 57343 < n then
                (parseStrAux fuel r3).map (fun p => (Char.ofNat n :: p.1, p.2))
              else if n ≤ 56319 then
                match r3 with
                | b1 :: b2 :: r4 =>
                  if b1 = '\\' && b2 = 'u' then
                    match hex4 r4 with
                    | none => none
                    | some (m, r5) =>
                      if 56320 ≤ m && m ≤ 57343 then
                        (parseStrAux fuel r5).map
                          (fun p => (Char.ofNat (65536 + (n - 55296) * 1024 + (m - 56320)) :: p.1, p.2))
                      else none
                  else none
                | _ => none
              else none
          else none
      else if c.toNat < 32 then none
      else (parseStrAux fuel rest).map (fun p => (c :: p.1, p.2))

/-- Digit list → value. -/
def digitsVal (l : List Char) : Nat := l.foldl (fun a c => 10 * a + (c.toNat - 48)) 0

/-- Integer part of a JSON number token: a single `0`, or a nonzero
digit followed by further digits (`0|[1-9]\d*`). -/
def parseIntPart : List Char → Option (List Char × List Char)
  | [] => none
  | c :: r =>
    if ¬ c.isDigit then none
    else if c = '0' then some ([c], r)
    else some (c :: r.takeWhile Char.isDigit, r.dropWhile Char.isDigit)

/-- Optional fractional part `(\.\d+)?`; a `.` not followed by a digit is
not consumed (regex backtracking). -/
def parseFracPart : List Char → List Char × List Char
  | [] => ([], [])
  | p :: rf =>
    if p = '.' then
      let ds := rf.takeWhile Char.isDigit
      if ds = [] then ([], p :: rf) else (ds, rf.dropWhile Char.isDigit)
    else ([], p :: rf)

/-- Optional sign of an exponent (`[-+]?`). -/
def parseExpSign : List Char → Bool × List Char
  | [] => (false, [])
  | s :: rr => if s = '-' then (true, rr) else if s = '+' then (false, rr) else (false, s :: rr)

/-- Optional exponent part `([eE][-+]?\d+)?`; an exponent marker not
followed by digits is not consumed. -/
def parseExpPart : List Char → Option Int × List Char
  | [] => (none, [])
  | p :: re =>
    if p = 'e' || p = 'E' then
      let sp := parseExpSign re
      let ds := sp.2.takeWhile Char.isDigit
      if ds = [] then (none, p :: re)
      else (some (if sp.1 then -(digitsVal ds : Int) else (digitsVal ds : Int)),
            sp.2.dropWhile Char.isDigit)
    else (none, p :: re)

/-- Optional leading minus of a number token. -/
def parseSign : List Char → Bool × List Char
  | [] => (false, [])
  | c :: r => if c = '-' then (true, r) else (false, c :: r)

/-- JSON number token, following the regex
`(-?(?:0|[1-9]\d*))(\.\d+)?([eE][-+]?\d+)?` used by Python's scanner:
returns the exact decimal mantissa/exponent and the unconsumed input. -/
def parseNumBody (l : List Char) : Option (Int × Int × List Char) :=
  let sp := parseSign l
  match parseIntPart sp.2 with
  | none => none
  | some (intDs, r1) =>
    let fp := parseFracPart r1
    let ep := parseExpPart fp.2
    let mAbs : Nat := digitsVal (intDs ++ fp.1)
    let m : Int := if sp.1 then -(mAbs : Int) else (mAbs : Int)
    let e : Int := (ep.1.getD 0) - (fp.1.length : Int)
    some (m, e, ep.2)

/-- Insert into an association list with Python-`dict` semantics: an
existing key is updated in place, a fresh key is appended. -/
def insertKV : List (String × J) → String → J → List (String × J)
  | [], k, v => [(k, v)]
  | (k0, v0) :: tl, k, v =>
    if k0 = k then (k0, v) :: tl else (k0, v0) :: insertKV tl k v

/-- The three mutually recursive parsing functions at one fuel level:
values, non-empty array element lists, object member lists. -/
structure Parsers where
  val : List Char → Option (J × List Char)
  elems : List Char → Option (List J × List Char)
  membs : List (String × J) → List Char → Option (List (String × J) × List Char)

/-- One level of JSON value parsing, given the parsers for strictly
deeper nesting. -/
def pValStep (P : Parsers) : List Char → Option (J × List Char) :=
  fun s =>
        let t := skipWs s
        match t with
        | [] => none
        | c :: rest =>
          if c = '"' then
            match parseStrAux (rest.length + 1) rest with
            | some (cs, r) => some (J.str ⟨cs⟩, r)
            | none => none
          else if c = '[' then
            match skipWs rest with
            | b :: r2 =>
              if b = ']' then some (J.arr [], r2)
              else
                match P.elems rest with
                | some (l, r) => some (J.arr l, r)
                | none => none
            | [] => none
          else if c = lcb then
            match skipWs rest with
            | b :: r2 =>
              if b = rcb then some (J.obj [], r2)
              else
                match P.membs [] rest with
                | some (kvs, r) => some (J.obj kvs, r)
                | none => none
            | [] => none
          else if leadsWith "true".data t then some (J.bool true, t.drop 4)
          else if leadsWith "false".data t then some (J.bool false, t.drop 5)
          else if leadsWith "null".data t then some (J.null, t.drop 4)
          else if leadsWith "NaN".data t then some (J.nan, t.drop 3)
          else if leadsWith "Infinity".data t then some (J.inf, t.drop 8)
          else if leadsWith "-Infinity".data t then some (J.neginf, t.drop 9)
          else
            match parseNumBody t with
            | some (m, e, r) => some (J.num m e, r)
            | none => none

/-- One level of array-element-list parsing (non-empty arrays). -/
def pElemsStep (P : Parsers) : List Char → Option (List J × List Char) :=
  fun s =>
        match P.val s with
        | none => none
        | some (v, r) =>
          match skipWs r with
          | [] => none
          | b :: r2 =>
            if b = ',' then
              match P.elems r2 with
              | some (l, r3) => some (v :: l, r3)
              | none => none
            else if b = ']' then some ([v], r2)
            else none

/-- One level of object-member-list parsing (non-empty objects), with the
accumulated members (Python builds the `dict` incrementally). -/
def pMembsStep (P : Parsers) : List (String × J) → List Char → Option (List (String × J) × List Char) :=
  fun acc s =>
        match skipWs s with
        | [] => none
        | c :: rest =>
          if c = '"' then
            match parseStrAux (rest.length + 1) rest with
            | none => none
            | some (k, r1) =>
              match skipWs r1 with
              | [] => none
              | b :: r2 =>
                if b = ':' then
                  match P.val r2 with
                  | none => none
                  | some (v, r3) =>
                    let acc2 := insertKV acc ⟨k⟩ v
                    match skipWs r3 with
                    | [] => none
                    | d :: r4 =>
                      if d = ',' then P.membs acc2 r4
                      else if d = rcb then some (acc2, r4)
                      else none
                else none
          else none

/-- Fueled recursive-descent parser for the JSON grammar accepted by
Python's `json.loads` (strict mode, `NaN`/`Infinity`/`-Infinity`
constants allowed).  Fuel decreases on every nested call. -/
def mkParsers : Nat → Parsers
  | 0 => ⟨fun _ => none, fun _ => none, fun _ _ => none⟩
  | fuel + 1 =>
    ⟨pValStep (mkParsers fuel), pElemsStep (mkParsers fuel), pMembsStep (mkParsers fuel)⟩

/-- Parse one JSON value with the given fuel. -/
def parseVal (fuel : Nat) (s : List Char) : Option (J × List Char) := (mkParsers fuel).val s

/-- Model of Python's `json.loads`: whitespace, one value, whitespace,
end of input (otherwise `Extra data`). -/
def loads (s : List Char) : Option J :=
  match parseVal (s.length + 1) s with
  | some (v, r) => if skipWs r = [] then some v else none
  | none => none

/-- Lower-case hex digit. -/
def hexDigit (n : Nat) : Char := if n < 10 then Char.ofNat (48 + n) else Char.ofNat (87 + n)

/-- Serialization of one string character: like Python's `json.dumps` with
`ensure_ascii=False`, escaping the quote, the backslash, and control
characters (uniformly as `\u00XX`); everything else is emitted raw. -/
def escChar (c : Char) : List Char :=
  if c = '"' then ['\\', '"']
  else if c = '\\' then ['\\', '\\']
  else if c.toNat < 32 then ['\\', 'u', '0', '0', hexDigit (c.toNat / 16), hexDigit (c.toNat % 16)]
  else [c]

/-- Serialization of a string body. -/
def escStr (s : List Char) : List Char := (s.map escChar).flatten

/-- Decimal digits of a natural number (fueled; `n + 1` units always
suffice). -/
def natDigitsAux : Nat → Nat → List Char
  | 0, _ => []
  | f + 1, n =>
    if n < 10 then [Char.ofNat (48 + n)]
    else natDigitsAux f (n / 10) ++ [Char.ofNat (48 + n % 10)]

/-- Decimal digits of a natural number. -/
def natDigits (n : Nat) : List Char := natDigitsAux (n + 1) n

/-- Decimal form of an integer. -/
def intDumps (i : Int) : List Char :=
  if i < 0 then '-' :: natDigits i.natAbs else natDigits i.natAbs

mutual

/-- JSON serializer (compact separators, `ensure_ascii=False`-style string
escaping): produces a valid input for `json.loads`. -/
def dumps : J → List Char
  | .null => "null".data
  | .bool true => "true".data
  | .bool false => "false".data
  | .nan => "NaN".data
  | .inf => "Infinity".data
  | .neginf => "-Infinity".data
  | .num m e => if e = 0 then intDumps m else intDumps m ++ 'e' :: intDumps e
  | .str s => '"' :: (escStr s.data ++ ['"'])
  | .arr l => '[' :: (dumpsElems l ++ [']'])
  | .obj kvs => lcb :: (dumpsMembers kvs ++ [rcb])

/-- Comma-separated serialization of array elements. -/
def dumpsElems : List J → List Char
  | [] => []
  | [x] => dumps x
  | x :: y :: tl => dumps x ++ ',' :: dumpsElems (y :: tl)

/-- Comma-separated serialization of object members. -/
def dumpsMembers : List (String × J) → List Char
  | [] => []
  | [(k, v)] => '"' :: (escStr k.data ++ ('"' :: ':' :: dumps v))
  | (k, v) :: w :: tl =>
    ('"' :: (escStr k.data ++ ('"' :: ':' :: dumps v))) ++ ',' :: dumpsMembers (w :: tl)

end

/-- Serialization of a parsed top-level array, as used when re-feeding the
parser its own output. -/
def dumpsArr (l : List J) : List Char := dumps (J.arr l)

/-- Triple backtick. -/
def fence3 : List Char := [bt, bt, bt]

/-- Triple backtick followed by `json`. -/
def fenceJ : List Char := fence3 ++ "json".data

/-- One pass of `re.sub(r"` ``` `(?:json)?", "", text)`: remove every
(non-overlapping, leftmost-first, greedy) occurrence of ` ``` ` optionally
followed by `json`.  Fueled by input length. -/
def stripFencesAux : Nat → List Char → List Char
  | 0, l => l
  | f + 1, l =>
    match l with
    | [] => []
    | c :: rest =>
      if leadsWith fenceJ l then stripFencesAux f (l.drop 7)
      else if leadsWith fence3 l then stripFencesAux f (l.drop 3)
      else c :: stripFencesAux f rest

/-- The markdown-fence removal in `_extract_json_array`. -/
def stripFences (l : List Char) : List Char := stripFencesAux l.length l

/-- Whitespace removed by Python's `str.strip()` (ASCII part; exotic
Unicode whitespace is not modelled and unused by the claims). -/
def isPyWs (c : Char) : Bool :=
  c = ' ' || c = '\t' || c = '\n' || c = '\r' || c = Char.ofNat 11 || c = Char.ofNat 12

/-- Remove trailing Python whitespace. -/
def dropTrail (l : List Char) : List Char := (l.reverse.dropWhile isPyWs).reverse

/-- Python's `str.strip()`. -/
def pyStrip (l : List Char) : List Char := dropTrail (l.dropWhile isPyWs)

/-- `re.search(r"\[.*\]", text, re.DOTALL)`: with a greedy `.*` matching
newlines, the match (if any) runs from the first `[` to the last `]`
provided the latter comes after the former. -/
def bracketWindow (l : List Char) : Option (List Char) :=
  match l.findIdx? (· = '[') with
  | none => none
  | some i =>
    match l.reverse.findIdx? (· = ']') with
    | none => none
    | some rj =>
      let j := l.length - 1 - rj
      if i < j then some ((l.drop i).take (j - i + 1)) else none

/-- `_extract_json_array` (extractor.py): strip markdown fences and outer
whitespace, try a direct parse, then fall back to the outermost
`[...]` window; `none` models raising
`ValueError("No valid JSON array found in LLM response.")`. -/
def extract_json_array (text : List Char) : Option (List J) :=
  let t := pyStrip (stripFences text)
  match loads t with
  | some (J.arr l) => some l
  | _ =>
    match bracketWindow t with
    | none => none
    | some w =>
      match loads w with
      | some (J.arr l) => some l
      | _ => none

/-- Index of the last `.` in the list, if any (Python `str.rfind(".")`,
with `none` for the `-1` case). -/
def rfindDot : List Char → Option Nat
  | [] => none
  | c :: tl =>
    match rfindDot tl with
    | some p => some (p + 1)
    | none => if c = '.' then some 0 else none

/-- `truncate_transcript` (text_utils.py).  The Python comparison
`last_period > max_chars * 0.8` multiplies by the float `0.8`; it is
modelled exactly as `5 * last_period > 4 * max_chars` (the two agree for
all realistic `max_chars`, in particular for every value exercised here
and for the default `12_000`). -/
def truncate_transcript (text : List Char) (max_chars : Nat) : List Char :=
  if text.length ≤ max_chars then text
  else
    let truncated := text.take max_chars
    let truncated2 :=
      match rfindDot truncated with
      | some p => if 4 * max_chars < 5 * p then truncated.take (p + 1) else truncated
      | none => truncated
    pyStrip truncated2

/-- `DiagnosticLayer` (metadata.py): four mandatory string fields. -/
structure DiagnosticLayer where
  related_inner_issues : String
  reality_commitment_check : String
  hidden_benefit : String
  energy_node : String
deriving DecidableEq

/-- `Pillars` (metadata.py): three mandatory string fields. -/
structure Pillars where
  intervention_narrative : String
  intervention_action : String
  intervention_shift : String
deriving DecidableEq

/-- `Atmosphere` (metadata.py): two mandatory string fields. -/
structure Atmosphere where
  tone : String
  pacing : String
deriving DecidableEq

/-- `EnergyNode` (metadata.py): the top-level record. -/
structure EnergyNode where
  video_id : String
  video_url : String
  main_question : String
  category : String
  diagnostic_layer : DiagnosticLayer
  pillars : Pillars
  atmosphere : Atmosphere
  overflow : List String
deriving DecidableEq

/-- `EnergyNode.embed_text` (metadata.py): the embedding-input string,
an f-string joining `main_question`, `category` and the four diagnostic
fields with single spaces. -/
def EnergyNode.embed_text (n : EnergyNode) : String :=
  n.main_question ++ " " ++ n.category ++ " " ++
    n.diagnostic_layer.related_inner_issues ++ " " ++
    n.diagnostic_layer.reality_commitment_check ++ " " ++
    n.diagnostic_layer.hidden_benefit ++ " " ++
    n.diagnostic_layer.energy_node

/-- First-match lookup in a parsed JSON object (Python `dict` access;
objects built by the parser have unique keys). -/
def lookupKV : List (String × J) → String → Option J
  | [], _ => none
  | (k0, v0) :: tl, k => if k0 = k then some v0 else lookupKV tl k

/-- A required pydantic `str` field: present and a JSON string (pydantic
v2 does not coerce numbers, booleans or null to `str`). -/
def getStrOpt : Option J → Option String
  | some (J.str s) => some s
  | _ => none

/-- `d.get(k, "")` fed to a pydantic `str` field: a missing key defaults
to the empty string, a present value must be a JSON string. -/
def getStrD (d : List (String × J)) (k : String) : Option String :=
  match lookupKV d k with
  | none => some ""
  | some (J.str s) => some s
  | some _ => none

/-- `Pillars(**item["pillars"])`: the value must be a mapping and supply
all three fields as strings (extra keys are ignored by pydantic). -/
def getPillars : J → Option Pillars
  | J.obj d => do
    let a ← getStrOpt (lookupKV d "intervention_narrative")
    let b ← getStrOpt (lookupKV d "intervention_action")
    let c ← getStrOpt (lookupKV d "intervention_shift")
    pure ⟨a, b, c⟩
  | _ => none

/-- `Atmosphere(**item["atmosphere"])`. -/
def getAtmosphere : J → Option Atmosphere
  | J.obj d => do
    let a ← getStrOpt (lookupKV d "tone")
    let b ← getStrOpt (lookupKV d "pacing")
    pure ⟨a, b⟩
  | _ => none

/-- A pydantic `List[str]`: every element must be a string. -/
def strListOf (l : List J) : Option (List String) :=
  l.mapM fun x => match x with | J.str s => some s | _ => none

/-- The body of one iteration of `_validate_nodes` (extractor.py): build
the `DiagnosticLayer` from `item.get("diagnostic_layer", {})` with
per-field defaults `""`, then the full `EnergyNode`; any failure
(non-mapping item, missing required key, wrong type — the `except
Exception` arm) yields `none` and the item is skipped. -/
def validateNode (video_id video_url : String) (item : J) : Option EnergyNode :=
  match item with
  | J.obj kvs => do
    let dl ← (match lookupKV kvs "diagnostic_layer" with
              | none => some []
              | some (J.obj d) => some d
              | some _ => none)
    let rii ← getStrD dl "related_inner_issues"
    let rcc ← getStrD dl "reality_commitment_check"
    let hb ← getStrD dl "hidden_benefit"
    let en ← getStrD dl "energy_node"
    let mq ← getStrOpt (lookupKV kvs "main_question")
    let cat ← getStrOpt (lookupKV kvs "category")
    let pRaw ← lookupKV kvs "pillars"
    let pil ← getPillars pRaw
    let aRaw ← lookupKV kvs "atmosphere"
    let atm ← getAtmosphere aRaw
    let ovf ← (match lookupKV kvs "overflow" with
               | none => some []
               | some (J.arr l) => strListOf l
               | some _ => none)
    pure ⟨video_id, video_url, mq, cat, ⟨rii, rcc, hb, en⟩, pil, atm, ovf⟩
  | _ => none

/-- The accumulator loop of `_validate_nodes`: `nodes = []`, append each
successfully validated item, skip failures. -/
def validateAux : List J → String → String → List EnergyNode → List EnergyNode
  | [], _, _, acc => acc
  | x :: xs, vid, vurl, acc =>
    match validateNode vid vurl x with
    | some n => validateAux xs vid vurl (acc ++ [n])
    | none => validateAux xs vid vurl acc

/-- `_validate_nodes` (extractor.py). -/
def validate_nodes (raw_list : List J) (video_id video_url : String) : List EnergyNode :=
  validateAux raw_list video_id video_url []

/-- One observed behaviour of `llm.invoke` on one attempt: either a raw
response text, or a raised transport-level exception (any exception that
is not a `ValueError`, hence not retried by the tenacity policy). -/
inductive LLMOutcome where
  | ok (raw : List Char) : LLMOutcome
  | transport : LLMOutcome

/-- A language-model collaborator: what `llm.invoke` does on each attempt
(0-based) for a given (truncated) transcript. -/
def Oracle : Type := Nat → List Char → LLMOutcome

/-- Exceptions escaping `_call_llm_and_parse`'s body: `parse` is the
`ValueError` raised by `_extract_json_array` (the spec's `ParseError`),
`transport` any other exception raised by the model call. -/
inductive CallError where
  | parse : CallError
  | transport : CallError
deriving DecidableEq

/-- One un-retried execution of `_call_llm_and_parse`'s body on attempt
`n`: invoke the model and parse the JSON array out of its response. -/
def callOnce (o : Oracle) (t : List Char) (n : Nat) : Except CallError (List J) :=
  match o n t with
  | .transport => .error .transport
  | .ok raw =>
    match extract_json_array raw with
    | some l => .ok l
    | none => .error .parse

/-- The tenacity loop `retry(stop=stop_after_attempt(3),
retry=retry_if_exception_type((ValueError, json.JSONDecodeError)),
reraise=True)`: at most `attempts` calls, retrying only on `parse`
errors, re-raising the last error when attempts are exhausted; transport
errors propagate immediately.  The second component counts model
invocations.  (The exponential backoff only inserts sleeps between
attempts; timing is not modelled.) -/
def retryLoop (o : Oracle) (t : List Char) : Nat → Nat → Except CallError (List J) × Nat
  | 0, idx => (.error .parse, idx)
  | attempts + 1, idx =>
    match callOnce o t idx with
    | .ok l => (.ok l, idx + 1)
    | .error .transport => (.error .transport, idx + 1)
    | .error .parse =>
      if attempts = 0 then (.error .parse, idx + 1)
      else retryLoop o t attempts (idx + 1)

/-- `_call_llm_and_parse` (extractor.py): the retried call stage, with the
number of model invocations performed. -/
def call_llm_and_parse (o : Oracle) (t : List Char) : Except CallError (List J) × Nat :=
  retryLoop o t 3 0

/-- `extract_energy_nodes` (extractor.py): truncate the transcript, run
the retried call-and-parse stage inside `try/except Exception` (returning
`[]` on any failure), then validate the items.  The `Except` result type
records whether an exception escapes to the caller: by the `try/except`
both branches are `.ok`. -/
def extract_energy_nodes (o : Oracle) (transcript : List Char)
    (video_id video_url : String) (max_chars : Nat) :
    Except CallError (List EnergyNode) :=
  let truncated := truncate_transcript transcript max_chars
  match (call_llm_and_parse o truncated).1 with
  | .error _ => .ok []
  | .ok raw_list => .ok (validate_nodes raw_list video_id video_url)

mutual

/-- Well-formedness invariant of parser output: every object has
pairwise-distinct keys (Python `dict`s cannot hold duplicates). -/
def WfJ : J → Prop
  | .arr l => WfL l
  | .obj kvs => (kvs.map Prod.fst).Nodup ∧ WfKV kvs
  | _ => True

/-- All elements well-formed. -/
def WfL : List J → Prop
  | [] => True
  | x :: tl => WfJ x ∧ WfL tl

/-- All member values well-formed. -/
def WfKV : List (String × J) → Prop
  | [] => True
  | (_, v) :: tl => WfJ v ∧ WfKV tl

end

/-- A fully well-formed parsed item, with every diagnostic sub-field
supplied non-empty (used to exercise `_validate_nodes`). -/
def goodItem : J :=
  J.obj [("main_question", J.str "q"), ("category", J.str "Burnout"),
    ("diagnostic_layer", J.obj [("related_inner_issues", J.str "overwork"),
      ("reality_commitment_check", J.str "ready?"),
      ("hidden_benefit", J.str "control"),
      ("energy_node", J.str "depleted_energy")]),
    ("pillars", J.obj [("intervention_narrative", J.str "n"),
      ("intervention_action", J.str "a"), ("intervention_shift", J.str "s")]),
    ("atmosphere", J.obj [("tone", J.str "warm"), ("pacing", J.str "slow")]),
    ("overflow", J.arr [J.str "gem"])]

/-- A malformed parsed item: the `pillars` object is missing, so
`item["pillars"]` raises `KeyError` and the item is skipped. -/
def badItem : J :=
  J.obj [("main_question", J.str "q2"), ("category", J.str "Anxiety"),
    ("diagnostic_layer", J.obj [("energy_node", J.str "hypervigilant_energy")]),
    ("atmosphere", J.obj [("tone", J.str "warm"), ("pacing", J.str "slow")])]

/-- A parsed item with no `diagnostic_layer` at all but otherwise
well-formed: `_validate_nodes` accepts it with all four diagnostic
fields defaulted to the empty string. -/
def noDlItem : J :=
  J.obj [("main_question", J.str "q"), ("category", J.str "Burnout"),
    ("pillars", J.obj [("intervention_narrative", J.str "n"),
      ("intervention_action", J.str "a"), ("intervention_shift", J.str "s")]),
    ("atmosphere", J.obj [("tone", J.str "warm"), ("pacing", J.str "slow")])]

/-- A model client whose response never contains a JSON array: every
attempt ends in the `ValueError` from `_extract_json_array`. -/
def oParseFail : Oracle := fun _ _ => .ok "no array here".data

/-- A model client that fails to produce an array twice, then answers
with a parsable array on the third attempt. -/
def oThirdOk : Oracle := fun n _ =>
  if n = 2 then .ok "[\"A\"]".data else .ok "no array here".data

/-- A model client whose call raises a transport-level exception. -/
def oTransport : Oracle := fun _ _ => .transport

theorem length_dropWhile_le (p : Char → Bool) (l : List Char) :
    (l.dropWhile p).length ≤ l.length := by
  induction l with
  | nil => simp [List.dropWhile]
  | cons c tl ih =>
    rw [List.dropWhile_cons]
    by_cases h : p c
    · simp only [h, if_true, List.length_cons]
      omega
    · simp [h]

theorem dropTrail_length_le (l : List Char) : (dropTrail l).length ≤ l.length := by
  unfold dropTrail
  rw [List.length_reverse]
  calc (l.reverse.dropWhile isPyWs).length ≤ l.reverse.length := length_dropWhile_le _ _
    _ = l.length := List.length_reverse l

theorem pyStrip_length_le (l : List Char) : (pyStrip l).length ≤ l.length :=
  le_trans (dropTrail_length_le _) (length_dropWhile_le _ _)

theorem getLast?_dropWhile (p : Char → Bool) (l : List Char) (c : Char)
    (h : l.getLast? = some c) (hc : p c = false) :
    (l.dropWhile p).getLast? = some c := by
  induction l with
  | nil => simp at h
  | cons a tl ih =>
    cases tl with
    | nil =>
      simp only [List.getLast?_singleton, Option.some.injEq] at h
      subst h
      simp [List.dropWhile_cons, hc]
    | cons b tl2 =>
      rw [List.getLast?_cons_cons] at h
      rw [List.dropWhile_cons]
      by_cases hp : p a
      · simpa [hp] using ih h
      · rw [if_neg (by simp [hp]), List.getLast?_cons_cons]
        exact h

theorem dropTrail_of_getLast (l : List Char) (c : Char)
    (h : l.getLast? = some c) (hc : isPyWs c = false) : dropTrail l = l := by
  unfold dropTrail
  have hh : l.reverse.head? = some c := by rw [List.head?_reverse, h]
  cases hr : l.reverse with
  | nil => rw [hr] at hh; simp at hh
  | cons a tl =>
    rw [hr] at hh
    simp only [List.head?_cons, Option.some.injEq] at hh
    subst hh
    rw [List.dropWhile_cons, if_neg (by simp [hc])]
    rw [← hr, List.reverse_reverse]

theorem pyStrip_getLast (l : List Char) (c : Char)
    (h : l.getLast? = some c) (hc : isPyWs c = false) :
    (pyStrip l).getLast? = some c := by
  unfold pyStrip
  have h2 := getLast?_dropWhile isPyWs l c h hc
  rw [dropTrail_of_getLast _ c h2 hc]
  exact h2

theorem pyStrip_id (l : List Char) (c d : Char)
    (hh : l.head? = some c) (hc : isPyWs c = false)
    (hl : l.getLast? = some d) (hd : isPyWs d = false) : pyStrip l = l := by
  unfold pyStrip
  cases l with
  | nil => simp at hh
  | cons a tl =>
    simp only [List.head?_cons, Option.some.injEq] at hh
    subst hh
    rw [List.dropWhile_cons, if_neg (by simp [hc])]
    exact dropTrail_of_getLast _ d hl hd

theorem rfindDot_get (l : List Char) (p : Nat) (h : rfindDot l = some p) :
    l.get? p = some '.' := by
  induction l generalizing p with
  | nil => simp [rfindDot] at h
  | cons c tl ih =>
    rw [rfindDot] at h
    cases hr : rfindDot tl with
    | some q =>
      rw [hr] at h
      simp only [Option.some.injEq] at h
      subst h
      simpa using ih q hr
    | none =>
      rw [hr] at h
      by_cases hc : c = '.'
      · rw [if_pos hc] at h
        simp only [Option.some.injEq] at h
        subst h
        simp [hc]
      · rw [if_neg hc] at h
        exact absurd h (by simp)

theorem rfindDot_ge (l : List Char) (i : Nat) (h : l.get? i = some '.') :
    ∃ p, rfindDot l = some p ∧ i ≤ p := by
  induction l generalizing i with
  | nil => simp at h
  | cons c tl ih =>
    cases i with
    | zero =>
      simp only [List.get?_cons_zero, Option.some.injEq] at h
      cases hr : rfindDot tl with
      | some q => exact ⟨q + 1, by rw [rfindDot, hr], by omega⟩
      | none => exact ⟨0, by rw [rfindDot, hr, if_pos h], le_refl 0⟩
    | succ j =>
      simp only [List.get?_cons_succ] at h
      obtain ⟨q, hq, hle⟩ := ih j h
      exact ⟨q + 1, by rw [rfindDot, hq], by omega⟩

theorem getLast?_take_succ (l : List Char) (p : Nat) (c : Char)
    (h : l.get? p = some c) : (l.take (p + 1)).getLast? = some c := by
  induction l generalizing p with
  | nil => simp at h
  | cons a tl ih =>
    cases p with
    | zero =>
      simp only [List.get?_cons_zero, Option.some.injEq] at h
      subst h
      simp
    | succ q =>
      simp only [List.get?_cons_succ] at h
      have htl := ih q h
      rw [List.take_succ_cons]
      cases ht : tl.take (q + 1) with
      | nil => rw [ht] at htl; simp at htl
      | cons b tl2 =>
        rw [ht] at htl
        rw [List.getLast?_cons_cons]
        exact htl

/-- C7: for every text and `max_chars` with `len(text) <= max_chars`,
`truncate_transcript` returns the text unchanged. -/
theorem C7_truncate_identity (text : List Char) (max_chars : Nat)
    (h : text.length ≤ max_chars) :
    truncate_transcript text max_chars = text := by
  simp [truncate_transcript, h]

/-- Witness for C7 at a concrete input. -/
theorem C7_truncate_identity_witness :
    "abc".data.length ≤ 5 ∧ truncate_transcript "abc".data 5 = "abc".data :=
  ⟨by decide, C7_truncate_identity "abc".data 5 (by decide)⟩

/-- C10: for every text and every `max_chars`, the result of
`truncate_transcript` has length at most `max_chars` and at most
`len(text)`, on every code path (sentence-boundary cut and final strip
included). -/
theorem C10_truncate_length_bound (text : List Char) (max_chars : Nat) :
    (truncate_transcript text max_chars).length ≤ max_chars ∧
    (truncate_transcript text max_chars).length ≤ text.length := by
  by_cases h : text.length ≤ max_chars
  · simp [truncate_transcript, h]
  · unfold truncate_transcript
    rw [if_neg h]
    have htk : (text.take max_chars).length = max_chars := by
      rw [List.length_take]
      omega
    have key : ∀ t2 : List Char, t2.length ≤ max_chars →
        (pyStrip t2).length ≤ max_chars ∧ (pyStrip t2).length ≤ text.length := by
      intro t2 h2
      have hs := pyStrip_length_le t2
      constructor
      · omega
      · omega
    cases hr : rfindDot (text.take max_chars) with
    | none =>
      simp only [hr]
      exact key _ (le_of_eq htk)
    | some p =>
      simp only [hr]
      by_cases hc : 4 * max_chars < 5 * p
      · rw [if_pos hc]
        refine key _ ?_
        calc ((text.take max_chars).take (p + 1)).length
            ≤ (text.take max_chars).length := by
              rw [List.length_take]
              omega
          _ = max_chars := htk
      · rw [if_neg hc]
        exact key _ (le_of_eq htk)

/-- C8 counterexample: with `max_chars = 10` and a transcript whose last
period inside the window sits exactly at position `8 = 80% of 10`
(satisfying the claim's "at or after 80%" condition), the code's strict
comparison `last_period > max_chars * 0.8` fails and the result does not
end with a period. -/
theorem C8_counterexample :
    10 < "aaaaaaaa.bcd".data.length ∧
    ("aaaaaaaa.bcd".data.take 10).get? 8 = some '.' ∧
    4 * 10 ≤ 5 * 8 ∧
    truncate_transcript "aaaaaaaa.bcd".data 10 = "aaaaaaaa.b".data ∧
    (truncate_transcript "aaaaaaaa.bcd".data 10).getLast? ≠ some '.' := by
  decide

/-- C8 (amended): if some period inside the truncation window sits
strictly after 80% of `max_chars` (the code's `>` comparison), the
truncated transcript ends with a period. -/
theorem C8_sentence_boundary_amended (text : List Char) (max_chars i : Nat)
    (hlen : max_chars < text.length)
    (hdot : (text.take max_chars).get? i = some '.')
    (hpos : 4 * max_chars < 5 * i) :
    (truncate_transcript text max_chars).getLast? = some '.' := by
  have hnot : ¬ text.length ≤ max_chars := by omega
  obtain ⟨p, hp, hip⟩ := rfindDot_ge _ _ hdot
  have hcond : 4 * max_chars < 5 * p := by omega
  have hpd : (text.take max_chars).get? p = some '.' := rfindDot_get _ _ hp
  have hlast : ((text.take max_chars).take (p + 1)).getLast? = some '.' :=
    getLast?_take_succ _ _ _ hpd
  unfold truncate_transcript
  rw [if_neg hnot]
  simp only [hp]
  rw [if_pos hcond]
  exact pyStrip_getLast _ _ hlast (by decide)

/-- Witness for C8 (amended) at a concrete input. -/
theorem C8_sentence_boundary_amended_witness :
    10 < "aaaaaaaaa.bcd".data.length ∧
    ("aaaaaaaaa.bcd".data.take 10).get? 9 = some '.' ∧
    4 * 10 < 5 * 9 ∧
    (truncate_transcript "aaaaaaaaa.bcd".data 10).getLast? = some '.' :=
  ⟨by decide, by decide, by decide,
    C8_sentence_boundary_amended "aaaaaaaaa.bcd".data 10 9 (by decide) (by decide) (by decide)⟩

theorem leadsWith_append (x r : List Char) : leadsWith x (x ++ r) = true := by
  induction x with
  | nil => cases r <;> simp [leadsWith]
  | cons a as ih => simp [leadsWith, ih]

theorem containsSub_of_leads (x hay : List Char) (h : leadsWith x hay = true) :
    containsSub x hay = true := by
  cases hay with
  | nil => simpa [containsSub] using h
  | cons c tl => simp [containsSub, h]

theorem containsSub_mid (x pre suf : List Char) :
    containsSub x (pre ++ (x ++ suf)) = true := by
  induction pre with
  | nil => exact containsSub_of_leads _ _ (leadsWith_append x suf)
  | cons p ps ih => simp [containsSub, ih]

/-- C9: the embedding-input string of every record is the space-joined
concatenation of `main_question`, `category` and the four diagnostic
fields, and therefore contains `main_question`, `category` and
`diagnostic_layer.energy_node` verbatim as substrings. -/
theorem C9_embed_text_contains (n : EnergyNode) :
    n.embed_text = n.main_question ++ " " ++ n.category ++ " " ++
      n.diagnostic_layer.related_inner_issues ++ " " ++
      n.diagnostic_layer.reality_commitment_check ++ " " ++
      n.diagnostic_layer.hidden_benefit ++ " " ++
      n.diagnostic_layer.energy_node ∧
    containsSub n.main_question.data n.embed_text.data = true ∧
    containsSub n.category.data n.embed_text.data = true ∧
    containsSub n.diagnostic_layer.energy_node.data n.embed_text.data = true := by
  refine ⟨rfl, ?_, ?_, ?_⟩
  · simpa [EnergyNode.embed_text, String.data_append, List.append_assoc] using
      containsSub_mid n.main_question.data []
        (" ".data ++ n.category.data ++ " ".data ++
          n.diagnostic_layer.related_inner_issues.data ++ " ".data ++
          n.diagnostic_layer.reality_commitment_check.data ++ " ".data ++
          n.diagnostic_layer.hidden_benefit.data ++ " ".data ++
          n.diagnostic_layer.energy_node.data)
  · simpa [EnergyNode.embed_text, String.data_append, List.append_assoc] using
      containsSub_mid n.category.data (n.main_question.data ++ " ".data)
        (" ".data ++ n.diagnostic_layer.related_inner_issues.data ++ " ".data ++
          n.diagnostic_layer.reality_commitment_check.data ++ " ".data ++
          n.diagnostic_layer.hidden_benefit.data ++ " ".data ++
          n.diagnostic_layer.energy_node.data)
  · simpa [EnergyNode.embed_text, String.data_append, List.append_assoc] using
      containsSub_mid n.diagnostic_layer.energy_node.data
        (n.main_question.data ++ " ".data ++ n.category.data ++ " ".data ++
          n.diagnostic_layer.related_inner_issues.data ++ " ".data ++
          n.diagnostic_layer.reality_commitment_check.data ++ " ".data ++
          n.diagnostic_layer.hidden_benefit.data ++ " ".data) []

theorem validateAux_eq (l : List J) (vid vurl : String) (acc : List EnergyNode) :
    validateAux l vid vurl acc = acc ++ l.filterMap (validateNode vid vurl) := by
  induction l generalizing acc with
  | nil => simp [validateAux]
  | cons x xs ih =>
    cases hx : validateNode vid vurl x with
    | some n => simp [validateAux, hx, ih, List.filterMap_cons]
    | none => simp [validateAux, hx, ih, List.filterMap_cons]

/-- C4: per-item validation failures are isolated: on a parsed array with
one item missing `pillars` and one fully well-formed item, exactly the
well-formed item survives; in general `_validate_nodes` returns the
order-preserving `filterMap` of per-item validation over the array. -/
theorem C4_item_isolation :
    validate_nodes [badItem, goodItem] "vid" "url" =
      [⟨"vid", "url", "q", "Burnout",
        ⟨"overwork", "ready?", "control", "depleted_energy"⟩,
        ⟨"n", "a", "s"⟩, ⟨"warm", "slow"⟩, ["gem"]⟩] ∧
    validateNode "vid" "url" badItem = none ∧
    (∀ (l : List J) (vid vurl : String),
      validate_nodes l vid vurl = l.filterMap (validateNode vid vurl)) :=
  ⟨rfl, rfl, fun l vid vurl => by
    simpa [validate_nodes] using validateAux_eq l vid vurl []⟩

/-- C1 counterexample: a parsed item with no `diagnostic_layer` at all is
accepted by `_validate_nodes` (one record comes back) and all four
diagnostic strings of the accepted record are empty, refuting the claimed
non-emptiness invariant. -/
theorem C1_counterexample :
    (validate_nodes [noDlItem] "vid" "url").length = 1 ∧
    (validate_nodes [noDlItem] "vid" "url").map
        (fun n => (n.diagnostic_layer.related_inner_issues,
                   n.diagnostic_layer.reality_commitment_check,
                   n.diagnostic_layer.hidden_benefit,
                   n.diagnostic_layer.energy_node)) = [("", "", "", "")] := by
  constructor
  · rfl
  · rfl

/-- C5: the response parser succeeds on the bare, code-fenced and
prose-wrapped variants of `[{"a":1}]`, yielding the same single-element
array, and fails (raises `ParseError`, i.e. returns `none`) on
`"no array here"`. -/
theorem C5_parser_examples :
    extract_json_array "[\x7b\"a\":1\x7d]".data = some [J.obj [("a", J.num 1 0)]] ∧
    extract_json_array "```json\n[\x7b\"a\":1\x7d]\n```".data = some [J.obj [("a", J.num 1 0)]] ∧
    extract_json_array "Here is the result: [\x7b\"a\":1\x7d] Hope this helps!".data =
      some [J.obj [("a", J.num 1 0)]] ∧
    extract_json_array "no array here".data = none :=
  ⟨rfl, rfl, rfl, rfl⟩

/-- C2: for every model-client behaviour, transcript and arguments,
`extract_energy_nodes` returns an `.ok` result (no exception escapes),
and whenever the retried call stage ends in an error the result is the
empty list. -/
theorem C2_extract_never_raises (o : Oracle) (transcript : List Char)
    (vid vurl : String) (max_chars : Nat) :
    (∃ ns, extract_energy_nodes o transcript vid vurl max_chars = .ok ns) ∧
    ((∃ e, (call_llm_and_parse o (truncate_transcript transcript max_chars)).1 = .error e) →
      extract_energy_nodes o transcript vid vurl max_chars = .ok []) := by
  have hrw : extract_energy_nodes o transcript vid vurl max_chars =
      (match (call_llm_and_parse o (truncate_transcript transcript max_chars)).1 with
       | .error _ => .ok []
       | .ok raw_list => .ok (validate_nodes raw_list vid vurl)) := rfl
  cases h : (call_llm_and_parse o (truncate_transcript transcript max_chars)).1 with
  | error e =>
    refine ⟨⟨[], ?_⟩, fun _ => ?_⟩ <;> rw [hrw, h]
  | ok raw_list =>
    refine ⟨⟨validate_nodes raw_list vid vurl, by rw [hrw, h]⟩, ?_⟩
    rintro ⟨e, he⟩
    exact Except.noConfusion he

/-- Witness for C2 with a client that always raises a transport error. -/
theorem C2_extract_never_raises_witness :
    (∃ ns, extract_energy_nodes oTransport "t".data "v" "u" 100 = .ok ns) ∧
    extract_energy_nodes oTransport "t".data "v" "u" 100 = .ok [] :=
  ⟨(C2_extract_never_raises oTransport "t".data "v" "u" 100).1,
   (C2_extract_never_raises oTransport "t".data "v" "u" 100).2 ⟨.transport, rfl⟩⟩

/-- C1 (amended): the four diagnostic fields of an accepted record are
exactly the strings supplied by the item (they default to `""` when the
`diagnostic_layer` or a sub-field is missing, so they are non-empty
precisely when supplied non-empty). -/
theorem C1_diagnostic_fields_from_item (vid vurl : String) (kvs d : List (String × J))
    (node : EnergyNode) (s1 s2 s3 s4 : String)
    (hok : validateNode vid vurl (J.obj kvs) = some node)
    (hdl : lookupKV kvs "diagnostic_layer" = some (J.obj d))
    (h1 : lookupKV d "related_inner_issues" = some (J.str s1))
    (h2 : lookupKV d "reality_commitment_check" = some (J.str s2))
    (h3 : lookupKV d "hidden_benefit" = some (J.str s3))
    (h4 : lookupKV d "energy_node" = some (J.str s4)) :
    node.diagnostic_layer = ⟨s1, s2, s3, s4⟩ := by
  simp only [validateNode, hdl, getStrD, h1, h2, h3, h4, Option.bind_eq_bind,
    Option.some_bind, Option.pure_def, Option.bind_eq_some, Option.some.injEq] at hok
  obtain ⟨mq, hmq, cat, hcat, pr, hpr, pil, hpil, ar, har, atm, hatm, ovf, hovf, hnode⟩ := hok
  rw [← hnode]

/-- Witness for C1 (amended) at a fully-supplied concrete item. -/
theorem C1_diagnostic_fields_from_item_witness :
    validateNode "vid" "url" goodItem =
      some ⟨"vid", "url", "q", "Burnout",
        ⟨"overwork", "ready?", "control", "depleted_energy"⟩,
        ⟨"n", "a", "s"⟩, ⟨"warm", "slow"⟩, ["gem"]⟩ ∧
    (⟨"vid", "url", "q", "Burnout",
        ⟨"overwork", "ready?", "control", "depleted_energy"⟩,
        ⟨"n", "a", "s"⟩, ⟨"warm", "slow"⟩, ["gem"]⟩ : EnergyNode).diagnostic_layer =
      ⟨"overwork", "ready?", "control", "depleted_energy"⟩ :=
  ⟨rfl, C1_diagnostic_fields_from_item "vid" "url"
    [("main_question", J.str "q"), ("category", J.str "Burnout"),
      ("diagnostic_layer", J.obj [("related_inner_issues", J.str "overwork"),
        ("reality_commitment_check", J.str "ready?"),
        ("hidden_benefit", J.str "control"),
        ("energy_node", J.str "depleted_energy")]),
      ("pillars", J.obj [("intervention_narrative", J.str "n"),
        ("intervention_action", J.str "a"), ("intervention_shift", J.str "s")]),
      ("atmosphere", J.obj [("tone", J.str "warm"), ("pacing", J.str "slow")]),
      ("overflow", J.arr [J.str "gem"])]
    [("related_inner_issues", J.str "overwork"),
      ("reality_commitment_check", J.str "ready?"),
      ("hidden_benefit", J.str "control"),
      ("energy_node", J.str "depleted_energy")]
    _ "overwork" "ready?" "control" "depleted_energy" rfl rfl rfl rfl rfl rfl⟩

theorem retryLoop_succ (o : Oracle) (t : List Char) (a idx : Nat) :
    retryLoop o t (a + 1) idx =
      match callOnce o t idx with
      | .ok l => (.ok l, idx + 1)
      | .error .transport => (.error .transport, idx + 1)
      | .error .parse =>
        if a = 0 then (.error .parse, idx + 1) else retryLoop o t a (idx + 1) := rfl

theorem retryLoop_step_parse (o : Oracle) (t : List Char) (a idx : Nat)
    (h : callOnce o t idx = .error .parse) (ha : a ≠ 0) :
    retryLoop o t (a + 1) idx = retryLoop o t a (idx + 1) := by
  rw [retryLoop_succ, h]
  simp [ha]

theorem retryLoop_step_parse_last (o : Oracle) (t : List Char) (idx : Nat)
    (h : callOnce o t idx = .error .parse) :
    retryLoop o t (0 + 1) idx = (.error .parse, idx + 1) := by
  rw [retryLoop_succ, h]
  simp

theorem retryLoop_step_ok (o : Oracle) (t : List Char) (a idx : Nat) (l : List J)
    (h : callOnce o t idx = .ok l) :
    retryLoop o t (a + 1) idx = (.ok l, idx + 1) := by
  rw [retryLoop_succ, h]

theorem retryLoop_step_transport (o : Oracle) (t : List Char) (a idx : Nat)
    (h : callOnce o t idx = .error .transport) :
    retryLoop o t (a + 1) idx = (.error .transport, idx + 1) := by
  rw [retryLoop_succ, h]

/-- C3: the call-and-parse stage retries only on parse failure, at most 3
attempts: a client failing with `ParseError` on every attempt is invoked
exactly 3 times and `extract` returns the empty list with no exception;
a client failing twice and succeeding on the third attempt yields the
successful result after exactly 3 invocations; a transport error is not
retried and propagates after exactly 1 invocation. -/
theorem C3_retry_semantics (o1 o2 o3 : Oracle) (t tr : List Char)
    (vid vurl : String) (mx : Nat) (l : List J)
    (h1 : ∀ n t', callOnce o1 t' n = .error .parse)
    (h2a : callOnce o2 t 0 = .error .parse)
    (h2b : callOnce o2 t 1 = .error .parse)
    (h2c : callOnce o2 t 2 = .ok l)
    (h3 : callOnce o3 t 0 = .error .transport) :
    call_llm_and_parse o1 t = (.error .parse, 3) ∧
    extract_energy_nodes o1 tr vid vurl mx = .ok [] ∧
    call_llm_and_parse o2 t = (.ok l, 3) ∧
    call_llm_and_parse o3 t = (.error .transport, 1) := by
  have chain : ∀ t' : List Char, retryLoop o1 t' 3 0 = (.error .parse, 3) := by
    intro t'
    have c1 : retryLoop o1 t' 3 0 = retryLoop o1 t' 2 1 :=
      retryLoop_step_parse o1 t' 2 0 (h1 0 t') (by decide)
    have c2 : retryLoop o1 t' 2 1 = retryLoop o1 t' 1 2 :=
      retryLoop_step_parse o1 t' 1 1 (h1 1 t') (by decide)
    have c3 : retryLoop o1 t' 1 2 = (.error .parse, 3) :=
      retryLoop_step_parse_last o1 t' 2 (h1 2 t')
    exact c1.trans (c2.trans c3)
  refine ⟨chain t, ?_, ?_, ?_⟩
  · have hm : extract_energy_nodes o1 tr vid vurl mx =
        (match (call_llm_and_parse o1 (truncate_transcript tr mx)).1 with
         | .error _ => .ok []
         | .ok raw_list => .ok (validate_nodes raw_list vid vurl)) := rfl
    have hc : (call_llm_and_parse o1 (truncate_transcript tr mx)).1 = .error .parse := by
      show (retryLoop o1 (truncate_transcript tr mx) 3 0).1 = _
      rw [chain (truncate_transcript tr mx)]
    rw [hm, hc]
  · have c1 : retryLoop o2 t 3 0 = retryLoop o2 t 2 1 :=
      retryLoop_step_parse o2 t 2 0 h2a (by decide)
    have c2 : retryLoop o2 t 2 1 = retryLoop o2 t 1 2 :=
      retryLoop_step_parse o2 t 1 1 h2b (by decide)
    have c3 : retryLoop o2 t 1 2 = (.ok l, 3) :=
      retryLoop_step_ok o2 t 0 2 l h2c
    exact c1.trans (c2.trans c3)
  · exact retryLoop_step_transport o3 t 2 0 h3

/-- Witness for C3 with three concrete model clients. -/
theorem C3_retry_semantics_witness :
    call_llm_and_parse oParseFail "t".data = (.error .parse, 3) ∧
    extract_energy_nodes oParseFail "t".data "v" "u" 100 = .ok [] ∧
    call_llm_and_parse oThirdOk "t".data = (.ok [J.str "A"], 3) ∧
    call_llm_and_parse oTransport "t".data = (.error .transport, 1) :=
  C3_retry_semantics oParseFail oThirdOk oTransport "t".data "t".data "v" "u" 100
    [J.str "A"] (fun _ _ => rfl) rfl rfl rfl rfl

theorem leadsWith_prefix (a b l : List Char) (h : leadsWith (a ++ b) l = true) :
    leadsWith a l = true := by
  induction a generalizing l with
  | nil => cases l <;> simp [leadsWith]
  | cons x xs ih =>
    cases l with
    | nil => simp [leadsWith] at h
    | cons y ys =>
      simp only [List.cons_append, leadsWith, Bool.and_eq_true] at h ⊢
      exact ⟨h.1, ih ys h.2⟩

theorem stripFencesAux_id (l : List Char) (hnf : containsSub fence3 l = false) :
    ∀ f, l.length ≤ f → stripFencesAux f l = l := by
  induction l with
  | nil => intro f _; cases f <;> simp [stripFencesAux]
  | cons c tl ih =>
    intro f hf
    cases f with
    | zero => simp at hf
    | succ g =>
      have hc : (leadsWith fence3 (c :: tl) = false) ∧ containsSub fence3 tl = false := by
        have h2 := hnf
        rw [containsSub] at h2
        exact ⟨by cases hx : leadsWith fence3 (c :: tl) <;> simp [hx] at h2 ⊢,
               by cases hx : containsSub fence3 tl <;> simp [hx] at h2 ⊢⟩
      have hfj : leadsWith fenceJ (c :: tl) = false := by
        cases hx : leadsWith fenceJ (c :: tl)
        · rfl
        · have := leadsWith_prefix fence3 "json".data (c :: tl) hx
          rw [hc.1] at this
          exact absurd this (by simp)
      rw [stripFencesAux, hfj]
      simp only [Bool.false_eq_true, if_false]
      rw [hc.1]
      simp only [Bool.false_eq_true, if_false]
      have : tl.length ≤ g := by
        simp only [List.length_cons] at hf
        omega
      rw [ih hc.2 g this]

theorem stripFences_id (l : List Char) (h : containsSub fence3 l = false) :
    stripFences l = l := stripFencesAux_id l h l.length le_rfl

theorem digitChar_isDigit : ∀ k, k < 10 → (Char.ofNat (48 + k)).isDigit = true := by decide

theorem digitChar_toNat : ∀ k, k < 10 → (Char.ofNat (48 + k)).toNat = 48 + k := by decide

theorem digitChar_ne_zero : ∀ k, k < 10 → 0 < k → Char.ofNat (48 + k) ≠ '0' := by decide

theorem digitsVal_append_digit (ds : List Char) (c : Char) :
    digitsVal (ds ++ [c]) = 10 * digitsVal ds + (c.toNat - 48) := by
  simp [digitsVal, List.foldl_append]

theorem natDigitsAux_spec : ∀ f n, n < f →
    natDigitsAux f n ≠ [] ∧ (∀ c ∈ natDigitsAux f n, c.isDigit = true) ∧
    digitsVal (natDigitsAux f n) = n ∧
    (0 < n → ∀ c cs, natDigitsAux f n = c :: cs → c ≠ '0') := by
  intro f
  induction f with
  | zero => intro n h; omega
  | succ g ih =>
    intro n h
    by_cases h10 : n < 10
    · rw [natDigitsAux, if_pos h10]
      refine ⟨by simp, ?_, ?_, ?_⟩
      · intro c hc
        simp only [List.mem_singleton] at hc
        subst hc
        exact digitChar_isDigit n h10
      · simp only [digitsVal, List.foldl_cons, List.foldl_nil]
        rw [digitChar_toNat n h10]
        omega
      · intro hn c cs hcc
        simp only [List.cons.injEq] at hcc
        rw [← hcc.1]
        exact digitChar_ne_zero n h10 hn
    · rw [natDigitsAux, if_neg h10]
      have hdiv : n / 10 < n := Nat.div_lt_self (by omega) (by omega)
      obtain ⟨hne, hdig, hval, hhd⟩ := ih (n / 10) (by omega)
      have hmod : n % 10 < 10 := Nat.mod_lt _ (by omega)
      refine ⟨by simp, ?_, ?_, ?_⟩
      · intro c hc
        rw [List.mem_append] at hc
        rcases hc with hc | hc
        · exact hdig c hc
        · simp only [List.mem_singleton] at hc
          subst hc
          exact digitChar_isDigit _ hmod
      · rw [digitsVal_append_digit, hval, digitChar_toNat _ hmod]
        omega
      · intro _ c cs hcc
        cases hnd : natDigitsAux g (n / 10) with
        | nil => exact absurd hnd hne
        | cons c0 cs0 =>
          rw [hnd, List.cons_append, List.cons.injEq] at hcc
          rw [← hcc.1]
          exact hhd (by omega) c0 cs0 hnd

theorem natDigits_spec (n : Nat) :
    natDigits n ≠ [] ∧ (∀ c ∈ natDigits n, c.isDigit = true) ∧
    digitsVal (natDigits n) = n ∧
    (0 < n → ∀ c cs, natDigits n = c :: cs → c ≠ '0') :=
  natDigitsAux_spec (n + 1) n (by omega)

theorem takeWhile_all_append (p : Char → Bool) (ds rest : List Char)
    (hall : ∀ c ∈ ds, p c = true)
    (hstop : ∀ c, rest.head? = some c → p c = false) :
    List.takeWhile p (ds ++ rest) = ds ∧ List.dropWhile p (ds ++ rest) = rest := by
  induction ds with
  | nil =>
    simp only [List.nil_append]
    cases rest with
    | nil => simp
    | cons c r =>
      have hx := hstop c rfl
      rw [List.takeWhile_cons, List.dropWhile_cons]
      simp [hx]
  | cons d ds' ih =>
    have hd := hall d (by simp)
    have hrest := ih (fun c hc => hall c (by simp [hc]))
    rw [List.cons_append, List.takeWhile_cons, List.dropWhile_cons]
    simp [hd, hrest.1, hrest.2]

theorem isDigit_ne (c d : Char) (hc : c.isDigit = true) (hd : d.isDigit = false) :
    c ≠ d := by
  intro h
  rw [h, hd] at hc
  exact absurd hc (by simp)

theorem parseIntPart_natDigits (n : Nat) (rest : List Char)
    (hstop : ∀ c, rest.head? = some c → c.isDigit = false) :
    parseIntPart (natDigits n ++ rest) = some (natDigits n, rest) := by
  obtain ⟨hne, hdig, _, hhd⟩ := natDigits_spec n
  cases hnd : natDigits n with
  | nil => exact absurd hnd hne
  | cons c cs =>
    rw [List.cons_append, parseIntPart]
    have hcdig : c.isDigit = true := hdig c (by rw [hnd]; simp)
    rw [if_neg (by simp [hcdig])]
    by_cases hc0 : c = '0'
    · have hn0 : n = 0 := by
        by_contra hnz
        exact hhd (by omega) c cs hnd hc0
      subst hn0
      have h0 : natDigits 0 = ['0'] := rfl
      have hcc : c = '0' ∧ cs = ([] : List Char) := by
        have h2 := h0.symm.trans hnd
        simp only [List.cons.injEq] at h2
        exact ⟨h2.1.symm, h2.2.symm⟩
      rw [if_pos hc0, hcc.2, List.nil_append]
    · rw [if_neg hc0]
      have h1 := takeWhile_all_append Char.isDigit cs rest
        (fun x hx => hdig x (by rw [hnd]; simp [hx])) hstop
      rw [h1.1, h1.2]

theorem parseFracPart_stop (rest : List Char)
    (hstop : ∀ c, rest.head? = some c → c ≠ '.') :
    parseFracPart rest = ([], rest) := by
  cases rest with
  | nil => rfl
  | cons p rf =>
    rw [parseFracPart, if_neg (hstop p rfl)]

theorem parseExpPart_stop (rest : List Char)
    (hstop : ∀ c, rest.head? = some c → c ≠ 'e' ∧ c ≠ 'E') :
    parseExpPart rest = (none, rest) := by
  cases rest with
  | nil => rfl
  | cons p re =>
    rw [parseExpPart, if_neg (by simp [(hstop p rfl).1, (hstop p rfl).2])]

theorem parseExpSign_intDumps (e : Int) (rest : List Char) :
    parseExpSign (intDumps e ++ rest) = (decide (e < 0), natDigits e.natAbs ++ rest) := by
  by_cases he : e < 0
  · rw [intDumps, if_pos he, List.cons_append, parseExpSign, if_pos rfl]
    simp [he]
  · rw [intDumps, if_neg he]
    obtain ⟨hne, hdig, _, _⟩ := natDigits_spec e.natAbs
    cases hnd : natDigits e.natAbs with
    | nil => exact absurd hnd hne
    | cons c cs =>
      have hcdig : c.isDigit = true := hdig c (by rw [hnd]; simp)
      have hps : parseExpSign (c :: (cs ++ rest)) =
          if c = '-' then (true, cs ++ rest)
          else if c = '+' then (false, cs ++ rest)
          else (false, c :: (cs ++ rest)) := rfl
      rw [List.cons_append, hps, if_neg (isDigit_ne c '-' hcdig (by decide)),
        if_neg (isDigit_ne c '+' hcdig (by decide))]
      simp [he]

theorem parseExpPart_intDumps (e : Int) (rest : List Char)
    (hstop : ∀ c, rest.head? = some c → c.isDigit = false) :
    parseExpPart ('e' :: (intDumps e ++ rest)) = (some e, rest) := by
  rw [parseExpPart, if_pos (by simp)]
  rw [parseExpSign_intDumps]
  obtain ⟨hne, hdig, hval, _⟩ := natDigits_spec e.natAbs
  have h1 := takeWhile_all_append Char.isDigit (natDigits e.natAbs) rest hdig hstop
  simp only [h1.1, h1.2, if_neg hne, hval]
  by_cases he : e < 0
  · rw [decide_eq_true he, if_pos rfl]
    congr 2
    omega
  · rw [decide_eq_false he, if_neg (by simp)]
    congr 2
    omega

theorem parseSign_intDumps (m : Int) (rest : List Char) :
    parseSign (intDumps m ++ rest) = (decide (m < 0), natDigits m.natAbs ++ rest) := by
  by_cases hm : m < 0
  · rw [intDumps, if_pos hm, List.cons_append, parseSign, if_pos rfl]
    simp [hm]
  · rw [intDumps, if_neg hm]
    obtain ⟨hne, hdig, _, _⟩ := natDigits_spec m.natAbs
    cases hnd : natDigits m.natAbs with
    | nil => exact absurd hnd hne
    | cons c cs =>
      have hcdig : c.isDigit = true := hdig c (by rw [hnd]; simp)
      have hps : parseSign (c :: (cs ++ rest)) =
          if c = '-' then (true, cs ++ rest) else (false, c :: (cs ++ rest)) := rfl
      rw [List.cons_append, hps, if_neg (isDigit_ne c '-' hcdig (by decide))]
      simp [hm]

theorem parseNumBody_intDumps (m : Int) (rest : List Char)
    (hstop : ∀ c, rest.head? = some c →
      c.isDigit = false ∧ c ≠ '.' ∧ c ≠ 'e' ∧ c ≠ 'E') :
    parseNumBody (intDumps m ++ rest) = some (m, 0, rest) := by
  have hip := parseIntPart_natDigits m.natAbs rest (fun c hc => (hstop c hc).1)
  have hfp := parseFracPart_stop rest (fun c hc => (hstop c hc).2.1)
  have hep := parseExpPart_stop rest (fun c hc => (hstop c hc).2.2)
  have hval := (natDigits_spec m.natAbs).2.2.1
  rw [parseNumBody, parseSign_intDumps]
  simp only [hip, hfp, hep, List.append_nil, hval, Option.getD_none, List.length_nil]
  by_cases hm : m < 0
  · rw [decide_eq_true hm, if_pos rfl]
    congr 2
    omega
  · rw [decide_eq_false hm, if_neg (by simp)]
    congr 2
    omega

theorem hexDigit_val : ∀ k, k < 16 → hexVal (hexDigit k) = some k := by decide

theorem hex4_eval (a b c d : Char) (x y z w : Nat) (rest : List Char)
    (ha : hexVal a = some x) (hb : hexVal b = some y)
    (hc : hexVal c = some z) (hd : hexVal d = some w) :
    hex4 (a :: b :: c :: d :: rest) = some (4096 * x + 256 * y + 16 * z + w, rest) := by
  simp [hex4, ha, hb, hc, hd]

theorem escChar_length_pos (c : Char) : 1 ≤ (escChar c).length := by
  unfold escChar
  by_cases h1 : c = '"'
  · simp [h1]
  · rw [if_neg h1]
    by_cases h2 : c = '\\'
    · simp [h2]
    · rw [if_neg h2]
      by_cases h3 : c.toNat < 32
      · simp [h3]
      · simp [h3]

theorem escStr_length_ge (s : List Char) : s.length ≤ (escStr s).length := by
  induction s with
  | nil => simp [escStr]
  | cons c cs ih =>
    have := escChar_length_pos c
    simp only [escStr, List.map_cons, List.flatten_cons, List.length_append,
      List.length_cons] at *
    omega

theorem parseStrAux_escape : ∀ s rest fuel, s.length < fuel →
    parseStrAux fuel (escStr s ++ '"' :: rest) = some (s, rest) := by
  intro s
  induction s with
  | nil =>
    intro rest fuel hf
    cases fuel with
    | zero => omega
    | succ g =>
      simp only [escStr, List.map_nil, List.flatten_nil, List.nil_append]
      rfl
  | cons c cs ih =>
    intro rest fuel hf
    cases fuel with
    | zero => omega
    | succ g =>
      have hcs : cs.length < g := by
        simp only [List.length_cons] at hf
        omega
      have hIH := ih rest g hcs
      have hcons : escStr (c :: cs) = escChar c ++ escStr cs := rfl
      rw [hcons, List.append_assoc]
      by_cases h1 : c = '"'
      · subst h1
        have he : escChar '"' = ['\\', '"'] := rfl
        rw [he, List.cons_append, List.cons_append, List.nil_append]
        have hstep : parseStrAux (g + 1) ('\\' :: '"' :: (escStr cs ++ '"' :: rest)) =
            (parseStrAux g (escStr cs ++ '"' :: rest)).map (fun p => ('"' :: p.1, p.2)) := rfl
        rw [hstep, hIH]
        rfl
      · by_cases h2 : c = '\\'
        · subst h2
          have he : escChar '\\' = ['\\', '\\'] := rfl
          rw [he, List.cons_append, List.cons_append, List.nil_append]
          have hstep : parseStrAux (g + 1) ('\\' :: '\\' :: (escStr cs ++ '"' :: rest)) =
              (parseStrAux g (escStr cs ++ '"' :: rest)).map (fun p => ('\\' :: p.1, p.2)) := rfl
          rw [hstep, hIH]
          rfl
        · by_cases h3 : c.toNat < 32
          · have he : escChar c =
                ['\\', 'u', '0', '0', hexDigit (c.toNat / 16), hexDigit (c.toNat % 16)] := by
              unfold escChar
              rw [if_neg h1, if_neg h2, if_pos h3]
            rw [he]
            simp only [List.cons_append, List.nil_append]
            have hh := hex4_eval '0' '0' (hexDigit (c.toNat / 16)) (hexDigit (c.toNat % 16))
              0 0 (c.toNat / 16) (c.toNat % 16) (escStr cs ++ '"' :: rest)
              (by decide) (by decide)
              (hexDigit_val _ (by omega)) (hexDigit_val _ (by omega))
            have hstep : parseStrAux (g + 1)
                ('\\' :: 'u' :: '0' :: '0' :: hexDigit (c.toNat / 16) ::
                  hexDigit (c.toNat % 16) :: (escStr cs ++ '"' :: rest)) =
                match hex4 ('0' :: '0' :: hexDigit (c.toNat / 16) ::
                    hexDigit (c.toNat % 16) :: (escStr cs ++ '"' :: rest)) with
                | none => none
                | some (n, r3) =>
                  if n < 55296 || 57343 < n then
                    (parseStrAux g r3).map (fun p => (Char.ofNat n :: p.1, p.2))
                  else if n ≤ 56319 then
                    match r3 with
                    | b1 :: b2 :: r4 =>
                      if b1 = '\\' && b2 = 'u' then
                        match hex4 r4 with
                        | none => none
                        | some (m, r5) =>
                          if 56320 ≤ m && m ≤ 57343 then
                            (parseStrAux g r5).map
                              (fun p => (Char.ofNat (65536 + (n - 55296) * 1024 + (m - 56320)) :: p.1, p.2))
                          else none
                      else none
                    | _ => none
                  else none := rfl
            rw [hstep, hh]
            simp only []
            have hv : 4096 * 0 + 256 * 0 + 16 * (c.toNat / 16) + c.toNat % 16 = c.toNat := by
              omega
            rw [hv, if_pos (by simp; omega), Char.ofNat_toNat, hIH]
            rfl
          · have he : escChar c = [c] := by
              unfold escChar
              rw [if_neg h1, if_neg h2, if_neg h3]
            rw [he, List.cons_append, List.nil_append]
            rw [parseStrAux.eq_def]
            simp only []
            rw [if_neg h1, if_neg h2, if_neg h3, hIH]
            rfl

theorem dumps_arr (l : List J) : dumps (J.arr l) = '[' :: (dumpsElems l ++ [']']) := by
  simp [dumps]

theorem dumps_obj (kvs : List (String × J)) :
    dumps (J.obj kvs) = lcb :: (dumpsMembers kvs ++ [rcb]) := by
  simp [dumps]

theorem dumps_str (s : String) : dumps (J.str s) = '"' :: (escStr s.data ++ ['"']) := by
  simp [dumps]

theorem dumps_num (m e : Int) :
    dumps (J.num m e) = if e = 0 then intDumps m else intDumps m ++ 'e' :: intDumps e := by
  simp [dumps]

theorem intDumps_head (m : Int) :
    ∃ c cs, intDumps m = c :: cs ∧ (c = '-' ∨ c.isDigit = true) := by
  by_cases hm : m < 0
  · rw [intDumps, if_pos hm]
    exact ⟨'-', natDigits m.natAbs, rfl, Or.inl rfl⟩
  · rw [intDumps, if_neg hm]
    obtain ⟨hne, hdig, _, _⟩ := natDigits_spec m.natAbs
    cases hnd : natDigits m.natAbs with
    | nil => exact absurd hnd hne
    | cons c cs => exact ⟨c, cs, rfl, Or.inr (hdig c (by rw [hnd]; simp))⟩

theorem intDumps_ne_nil (m : Int) : intDumps m ≠ [] := by
  obtain ⟨c, cs, hc, _⟩ := intDumps_head m
  rw [hc]
  simp

theorem digit_clean (c : Char) (h : c.isDigit = true) :
    isJsonWs c = false ∧ c ≠ ']' ∧ c ≠ ',' ∧ c ≠ rcb ∧ c ≠ '"' ∧ c ≠ '[' ∧ c ≠ lcb := by
  refine ⟨?_, isDigit_ne c ']' h (by decide), isDigit_ne c ',' h (by decide),
    isDigit_ne c rcb h (by decide), isDigit_ne c '"' h (by decide),
    isDigit_ne c '[' h (by decide), isDigit_ne c lcb h (by decide)⟩
  cases hw : isJsonWs c
  · rfl
  · exfalso
    simp only [isJsonWs, Bool.or_eq_true, decide_eq_true_eq] at hw
    rcases hw with ((h1 | h1) | h1) | h1 <;> (subst h1; exact absurd h (by decide))

theorem dumps_ne_nil (v : J) : dumps v ≠ [] := by
  cases v with
  | num m e =>
    rw [dumps_num]
    by_cases he : e = 0
    · rw [if_pos he]
      exact intDumps_ne_nil m
    · rw [if_neg he]
      have := intDumps_ne_nil m
      cases hm : intDumps m with
      | nil => exact absurd hm this
      | cons c cs => simp [hm]
  | null => rw [show dumps J.null = "null".data from by simp [dumps]]; simp
  | bool b => cases b <;> simp [dumps]
  | nan => simp [dumps]
  | inf => simp [dumps]
  | neginf => simp [dumps]
  | str s => rw [dumps_str]; simp
  | arr l => rw [dumps_arr]; simp
  | obj kvs => rw [dumps_obj]; simp

theorem dumps_length_pos (v : J) : 1 ≤ (dumps v).length := by
  have := dumps_ne_nil v
  cases h : dumps v with
  | nil => exact absurd h this
  | cons c cs => simp

/-- First character of every serialization: never whitespace and never a
closing delimiter or separator. -/
theorem dumps_head_spec (v : J) :
    ∃ c cs, dumps v = c :: cs ∧ isJsonWs c = false ∧ c ≠ ']' ∧ c ≠ ',' ∧ c ≠ rcb := by
  cases v with
  | null => exact ⟨'n', "ull".data, by simp [dumps], by decide, by decide, by decide, by decide⟩
  | bool b =>
    cases b
    · exact ⟨'f', "alse".data, by simp [dumps], by decide, by decide, by decide, by decide⟩
    · exact ⟨'t', "rue".data, by simp [dumps], by decide, by decide, by decide, by decide⟩
  | nan => exact ⟨'N', "aN".data, by simp [dumps], by decide, by decide, by decide, by decide⟩
  | inf =>
    exact ⟨'I', "nfinity".data, by simp [dumps], by decide, by decide, by decide, by decide⟩
  | neginf =>
    exact ⟨'-', "Infinity".data, by simp [dumps], by decide, by decide, by decide, by decide⟩
  | str s =>
    exact ⟨'"', escStr s.data ++ ['"'], by rw [dumps_str], by decide, by decide, by decide,
      by decide⟩
  | arr l =>
    exact ⟨'[', dumpsElems l ++ [']'], by rw [dumps_arr], by decide, by decide, by decide,
      by decide⟩
  | obj kvs =>
    exact ⟨lcb, dumpsMembers kvs ++ [rcb], by rw [dumps_obj], by decide, by decide, by decide,
      by decide⟩
  | num m e =>
    obtain ⟨c, cs, hc, hd⟩ := intDumps_head m
    have hcprops : isJsonWs c = false ∧ c ≠ ']' ∧ c ≠ ',' ∧ c ≠ rcb := by
      rcases hd with hd | hd
      · subst hd
        exact ⟨by decide, by decide, by decide, by decide⟩
      · obtain ⟨a, b1, b2, b3, _⟩ := digit_clean c hd
        exact ⟨a, b1, b2, b3⟩
    rw [dumps_num]
    by_cases he : e = 0
    · exact ⟨c, cs, by rw [if_pos he, hc], hcprops.1, hcprops.2.1, hcprops.2.2.1, hcprops.2.2.2⟩
    · exact ⟨c, cs ++ 'e' :: intDumps e,
        by rw [if_neg he, hc, List.cons_append], hcprops.1, hcprops.2.1, hcprops.2.2.1,
        hcprops.2.2.2⟩

theorem dumpsElems_pos (y : J) (tl : List J) : 1 ≤ (dumpsElems (y :: tl)).length := by
  cases tl with
  | nil => exact dumps_length_pos y
  | cons z tl2 =>
    rw [show dumpsElems (y :: z :: tl2) = dumps y ++ ',' :: dumpsElems (z :: tl2) from rfl]
    have := dumps_length_pos y
    simp only [List.length_append, List.length_cons]
    omega

theorem skipWs_cons_of (c : Char) (l : List Char) (h : isJsonWs c = false) :
    skipWs (c :: l) = c :: l := by
  simp [skipWs, List.dropWhile_cons, h]

theorem skipWs_id_of_head (l : List Char) (c : Char) (cs : List Char)
    (hl : l = c :: cs) (h : isJsonWs c = false) : skipWs l = l := by
  rw [hl]
  exact skipWs_cons_of c cs h

theorem insertKV_fresh (acc : List (String × J)) (k : String) (v : J)
    (h : ∀ kv ∈ acc, kv.1 ≠ k) : insertKV acc k v = acc ++ [(k, v)] := by
  induction acc with
  | nil => rfl
  | cons kv0 tl ih =>
    obtain ⟨k0, v0⟩ := kv0
    rw [insertKV, if_neg (h (k0, v0) (by simp)), List.cons_append]
    rw [ih (fun kv hkv => h kv (by simp [hkv]))]

theorem insertKV_keys_sub (acc : List (String × J)) (k : String) (v : J) :
    ∀ k', k' ∈ (insertKV acc k v).map Prod.fst → k' = k ∨ k' ∈ acc.map Prod.fst := by
  induction acc with
  | nil =>
    intro k' h
    simp [insertKV] at h
    exact Or.inl h
  | cons kv0 tl ih =>
    obtain ⟨k0, v0⟩ := kv0
    intro k' h
    rw [insertKV] at h
    by_cases hk : k0 = k
    · rw [if_pos hk] at h
      simp only [List.map_cons, List.mem_cons] at h
      rcases h with h | h
      · subst hk
        exact Or.inl h
      · exact Or.inr (by simp [h])
    · rw [if_neg hk] at h
      simp only [List.map_cons, List.mem_cons] at h
      rcases h with h | h
      · exact Or.inr (by simp [h])
      · rcases ih k' h with h2 | h2
        · exact Or.inl h2
        · exact Or.inr (by simp [h2])

theorem insertKV_nodup (acc : List (String × J)) (k : String) (v : J)
    (h : ((acc.map Prod.fst).Nodup)) : ((insertKV acc k v).map Prod.fst).Nodup := by
  induction acc with
  | nil => simp [insertKV]
  | cons kv0 tl ih =>
    obtain ⟨k0, v0⟩ := kv0
    rw [insertKV]
    simp only [List.map_cons, List.nodup_cons] at h
    by_cases hk : k0 = k
    · rw [if_pos hk]
      simp only [List.map_cons, List.nodup_cons]
      exact h
    · rw [if_neg hk]
      simp only [List.map_cons, List.nodup_cons]
      refine ⟨?_, ih h.2⟩
      intro hmem
      rcases insertKV_keys_sub tl k v k0 hmem with h2 | h2
      · exact hk h2
      · exact h.1 h2

theorem WfKV_mem (kvs : List (String × J)) (h : WfKV kvs) :
    ∀ kv ∈ kvs, WfJ kv.2 := by
  induction kvs with
  | nil => intro kv hkv; simp at hkv
  | cons kv0 tl ih =>
    obtain ⟨k0, v0⟩ := kv0
    rw [WfKV] at h
    intro kv hkv
    simp only [List.mem_cons] at hkv
    rcases hkv with hkv | hkv
    · subst hkv
      exact h.1
    · exact ih h.2 kv hkv

theorem insertKV_wfkv (acc : List (String × J)) (k : String) (v : J)
    (ha : WfKV acc) (hv : WfJ v) : WfKV (insertKV acc k v) := by
  induction acc with
  | nil => rw [insertKV, WfKV]; exact ⟨hv, trivial⟩
  | cons kv0 tl ih =>
    obtain ⟨k0, v0⟩ := kv0
    rw [WfKV] at ha
    rw [insertKV]
    by_cases hk : k0 = k
    · rw [if_pos hk, WfKV]
      exact ⟨hv, ha.2⟩
    · rw [if_neg hk, WfKV]
      exact ⟨ha.1, ih ha.2⟩

theorem leadsWith_false_of_head (w : Char) (ws : List Char) (c : Char) (l : List Char)
    (h : ¬ w = c) : leadsWith (w :: ws) (c :: l) = false := by
  simp [leadsWith, h]

theorem parseNumBody_intDumps_exp (m e : Int) (rest : List Char)
    (hstop : ∀ c, rest.head? = some c →
      c.isDigit = false ∧ c ≠ '.' ∧ c ≠ 'e' ∧ c ≠ 'E') :
    parseNumBody (intDumps m ++ 'e' :: (intDumps e ++ rest)) = some (m, e, rest) := by
  have hstopE : ∀ c, ('e' :: (intDumps e ++ rest)).head? = some c → c.isDigit = false := by
    intro c hc
    simp only [List.head?_cons, Option.some.injEq] at hc
    rw [← hc]
    decide
  have hip := parseIntPart_natDigits m.natAbs ('e' :: (intDumps e ++ rest)) hstopE
  have hfp : parseFracPart ('e' :: (intDumps e ++ rest)) = ([], 'e' :: (intDumps e ++ rest)) :=
    parseFracPart_stop _
      (by intro c hc; simp only [List.head?_cons, Option.some.injEq] at hc; rw [← hc]; decide)
  have hep := parseExpPart_intDumps e rest (fun c hc => (hstop c hc).1)
  have hval := (natDigits_spec m.natAbs).2.2.1
  rw [parseNumBody, parseSign_intDumps]
  simp only [hip, hfp, hep, List.append_nil, hval, Option.getD_some, List.length_nil,
    Nat.cast_zero, sub_zero]
  by_cases hm : m < 0
  · rw [decide_eq_true hm, if_pos rfl]
    have hm2 : -((m.natAbs : Nat) : Int) = m := by omega
    rw [hm2]
  · rw [decide_eq_false hm, if_neg (by simp)]
    have hm2 : ((m.natAbs : Nat) : Int) = m := by omega
    rw [hm2]

theorem pValStep_null (P : Parsers) (r : List Char) :
    pValStep P ("null".data ++ r) = some (J.null, r) := rfl

theorem pValStep_true (P : Parsers) (r : List Char) :
    pValStep P ("true".data ++ r) = some (J.bool true, r) := rfl

theorem pValStep_false (P : Parsers) (r : List Char) :
    pValStep P ("false".data ++ r) = some (J.bool false, r) := rfl

theorem pValStep_nan (P : Parsers) (r : List Char) :
    pValStep P ("NaN".data ++ r) = some (J.nan, r) := rfl

theorem pValStep_inf (P : Parsers) (r : List Char) :
    pValStep P ("Infinity".data ++ r) = some (J.inf, r) := rfl

theorem pValStep_neginf (P : Parsers) (r : List Char) :
    pValStep P ("-Infinity".data ++ r) = some (J.neginf, r) := rfl

theorem pValStep_quote (P : Parsers) (l : List Char) :
    pValStep P ('"' :: l) =
      (match parseStrAux (l.length + 1) l with
       | some (cs, r) => some (J.str ⟨cs⟩, r)
       | none => none) := rfl

theorem pValStep_lbracket (P : Parsers) (l : List Char) :
    pValStep P ('[' :: l) =
      (match skipWs l with
       | b :: r2 =>
         if b = ']' then some (J.arr [], r2)
         else
           match P.elems l with
           | some (l', r) => some (J.arr l', r)
           | none => none
       | [] => none) := rfl

theorem pValStep_lbrace (P : Parsers) (l : List Char) :
    pValStep P (lcb :: l) =
      (match skipWs l with
       | b :: r2 =>
         if b = rcb then some (J.obj [], r2)
         else
           match P.membs [] l with
           | some (kvs, r) => some (J.obj kvs, r)
           | none => none
       | [] => none) := rfl

theorem pValStep_num (P : Parsers) (c₀ : Char) (l : List Char)
    (h0 : isJsonWs c₀ = false)
    (hq : ¬ c₀ = '"') (hb : ¬ c₀ = '[') (hc : ¬ c₀ = lcb)
    (ht : leadsWith "true".data (c₀ :: l) = false)
    (hf : leadsWith "false".data (c₀ :: l) = false)
    (hn : leadsWith "null".data (c₀ :: l) = false)
    (hN : leadsWith "NaN".data (c₀ :: l) = false)
    (hI : leadsWith "Infinity".data (c₀ :: l) = false)
    (hmI : leadsWith "-Infinity".data (c₀ :: l) = false) :
    pValStep P (c₀ :: l) =
      (match parseNumBody (c₀ :: l) with
       | some (m, e, r) => some (J.num m e, r)
       | none => none) := by
  simp only [pValStep]
  rw [skipWs_cons_of c₀ l h0]
  simp only []
  rw [if_neg hq, if_neg hb, if_neg hc, ht, hf, hn, hN, hI, hmI]
  simp only [Bool.false_eq_true, if_false]

theorem pElemsStep_val (P : Parsers) (s : List Char) (v : J) (r : List Char)
    (h : P.val s = some (v, r)) :
    pElemsStep P s =
      (match skipWs r with
       | [] => none
       | b :: r2 =>
         if b = ',' then
           match P.elems r2 with
           | some (l, r3) => some (v :: l, r3)
           | none => none
         else if b = ']' then some ([v], r2)
         else none) := by
  have h0 : pElemsStep P s =
      (match P.val s with
       | none => none
       | some (v, r) =>
         match skipWs r with
         | [] => none
         | b :: r2 =>
           if b = ',' then
             match P.elems r2 with
             | some (l, r3) => some (v :: l, r3)
             | none => none
           else if b = ']' then some ([v], r2)
           else none) := rfl
  rw [h0, h]

theorem pMembsStep_quote (P : Parsers) (acc : List (String × J)) (kd : List Char)
    (l inner : List Char) (hparse : parseStrAux (l.length + 1) l = some (kd, inner)) :
    pMembsStep P acc ('"' :: l) =
      (match skipWs inner with
       | [] => none
       | b :: r2 =>
         if b = ':' then
           match P.val r2 with
           | none => none
           | some (v, r3) =>
             match skipWs r3 with
             | [] => none
             | d :: r4 =>
               if d = ',' then P.membs (insertKV acc ⟨kd⟩ v) r4
               else if d = rcb then some (insertKV acc ⟨kd⟩ v, r4)
               else none
         else none) := by
  have h0 : pMembsStep P acc ('"' :: l) =
      (match parseStrAux (l.length + 1) l with
       | none => none
       | some (k, r1) =>
         match skipWs r1 with
         | [] => none
         | b :: r2 =>
           if b = ':' then
             match P.val r2 with
             | none => none
             | some (v, r3) =>
               match skipWs r3 with
               | [] => none
               | d :: r4 =>
                 if d = ',' then P.membs (insertKV acc ⟨k⟩ v) r4
                 else if d = rcb then some (insertKV acc ⟨k⟩ v, r4)
                 else none
           else none) := rfl
  rw [h0, hparse]

/-- Round-trip of the fueled parser on serialized output: parsing
`dumps v` (followed by a closing delimiter or nothing) recovers `v`
exactly, for well-formed `v` and sufficient fuel. -/
theorem parsers_roundtrip : ∀ fuel : Nat,
    (∀ v rest, WfJ v →
      (∀ c, rest.head? = some c → c = ',' ∨ c = ']' ∨ c = rcb) →
      (dumps v).length < fuel →
      (mkParsers fuel).val (dumps v ++ rest) = some (v, rest)) ∧
    (∀ l rest, WfL l → l ≠ [] → (dumpsElems l).length + 1 < fuel →
      (mkParsers fuel).elems (dumpsElems l ++ ']' :: rest) = some (l, rest)) ∧
    (∀ kvs acc rest, WfKV kvs → kvs ≠ [] →
      (acc.map Prod.fst ++ kvs.map Prod.fst).Nodup →
      (dumpsMembers kvs).length + 1 < fuel →
      (mkParsers fuel).membs acc (dumpsMembers kvs ++ rcb :: rest) = some (acc ++ kvs, rest)) := by
  intro fuel
  induction fuel with
  | zero =>
    refine ⟨?_, ?_, ?_⟩
    · intro v rest _ _ hlen; omega
    · intro l rest _ _ hlen; omega
    · intro kvs acc rest _ _ _ hlen; omega
  | succ g ih =>
    obtain ⟨ihv, ihe, ihm⟩ := ih
    have hval : (mkParsers (g + 1)).val = pValStep (mkParsers g) := rfl
    have helems : (mkParsers (g + 1)).elems = pElemsStep (mkParsers g) := rfl
    have hmembs : (mkParsers (g + 1)).membs = pMembsStep (mkParsers g) := rfl
    refine ⟨?_, ?_, ?_⟩
    · -- values
      intro v rest hwf hrest hlen
      rw [hval]
      cases v with
      | null =>
        rw [show dumps J.null = "null".data from by simp [dumps]]
        exact pValStep_null _ rest
      | bool b =>
        cases b
        · rw [show dumps (J.bool false) = "false".data from by simp [dumps]]
          exact pValStep_false _ rest
        · rw [show dumps (J.bool true) = "true".data from by simp [dumps]]
          exact pValStep_true _ rest
      | nan =>
        rw [show dumps J.nan = "NaN".data from by simp [dumps]]
        exact pValStep_nan _ rest
      | inf =>
        rw [show dumps J.inf = "Infinity".data from by simp [dumps]]
        exact pValStep_inf _ rest
      | neginf =>
        rw [show dumps J.neginf = "-Infinity".data from by simp [dumps]]
        exact pValStep_neginf _ rest
      | num m e =>
        have hstop : ∀ cc, rest.head? = some cc →
            cc.isDigit = false ∧ cc ≠ '.' ∧ cc ≠ 'e' ∧ cc ≠ 'E' := by
          intro cc hcc
          rcases hrest cc hcc with h | h | h <;>
            (subst h; exact ⟨by decide, by decide, by decide, by decide⟩)
        rw [dumps_num]
        by_cases hm : m < 0
        · -- head is the minus sign, second char is a digit
          obtain ⟨hdne, hddig, _, _⟩ := natDigits_spec m.natAbs
          cases hnd : natDigits m.natAbs with
          | nil => exact absurd hnd hdne
          | cons d ds =>
            have hddig2 : d.isDigit = true := hddig d (by rw [hnd]; simp)
            have hId : ¬ ('I' : Char) = d := fun hx =>
              isDigit_ne d 'I' hddig2 (by decide) hx.symm
            have hshape : ∀ tail : List Char, intDumps m ++ tail = '-' :: d :: (ds ++ tail) := by
              intro tail
              rw [intDumps, if_pos hm, hnd]
              rfl
            have hnum : ∀ tail : List Char,
                pValStep (mkParsers g) (intDumps m ++ tail) =
                  (match parseNumBody (intDumps m ++ tail) with
                   | some (m', e', r) => some (J.num m' e', r)
                   | none => none) := by
              intro tail
              rw [hshape tail]
              have := pValStep_num (mkParsers g) '-' (d :: (ds ++ tail))
                (by decide) (by decide) (by decide) (by decide)
                (leadsWith_false_of_head _ _ _ _ (by decide))
                (leadsWith_false_of_head _ _ _ _ (by decide))
                (leadsWith_false_of_head _ _ _ _ (by decide))
                (leadsWith_false_of_head _ _ _ _ (by decide))
                (leadsWith_false_of_head _ _ _ _ (by decide))
                (by
                  show leadsWith ('-' :: "Infinity".data) ('-' :: d :: (ds ++ tail)) = false
                  rw [leadsWith]
                  rw [leadsWith_false_of_head 'I' _ d _ hId]
                  simp)
              rw [this, ← hshape tail]
            by_cases he : e = 0
            · rw [if_pos he, hnum rest, parseNumBody_intDumps m rest hstop, he]
            · rw [if_neg he, List.append_assoc, List.cons_append,
                hnum ('e' :: (intDumps e ++ rest)),
                parseNumBody_intDumps_exp m e rest hstop]
        · -- head is a digit
          obtain ⟨hdne, hddig, _, _⟩ := natDigits_spec m.natAbs
          cases hnd : natDigits m.natAbs with
          | nil => exact absurd hnd hdne
          | cons d ds =>
            have hddig2 : d.isDigit = true := hddig d (by rw [hnd]; simp)
            obtain ⟨hw, _, _, _, hq, hb, hcb⟩ := digit_clean d hddig2
            have hshape : ∀ tail : List Char, intDumps m ++ tail = d :: (ds ++ tail) := by
              intro tail
              rw [intDumps, if_neg hm, hnd]
              rfl
            have hnum : ∀ tail : List Char,
                pValStep (mkParsers g) (intDumps m ++ tail) =
                  (match parseNumBody (intDumps m ++ tail) with
                   | some (m', e', r) => some (J.num m' e', r)
                   | none => none) := by
              intro tail
              rw [hshape tail]
              have := pValStep_num (mkParsers g) d (ds ++ tail) hw hq hb hcb
                (leadsWith_false_of_head _ _ _ _
                  (fun hx => isDigit_ne d 't' hddig2 (by decide) hx.symm))
                (leadsWith_false_of_head _ _ _ _
                  (fun hx => isDigit_ne d 'f' hddig2 (by decide) hx.symm))
                (leadsWith_false_of_head _ _ _ _
                  (fun hx => isDigit_ne d 'n' hddig2 (by decide) hx.symm))
                (leadsWith_false_of_head _ _ _ _
                  (fun hx => isDigit_ne d 'N' hddig2 (by decide) hx.symm))
                (leadsWith_false_of_head _ _ _ _
                  (fun hx => isDigit_ne d 'I' hddig2 (by decide) hx.symm))
                (leadsWith_false_of_head _ _ _ _
                  (fun hx => isDigit_ne d '-' hddig2 (by decide) hx.symm))
              rw [this, ← hshape tail]
            by_cases he : e = 0
            · rw [if_pos he, hnum rest, parseNumBody_intDumps m rest hstop, he]
            · rw [if_neg he, List.append_assoc, List.cons_append,
                hnum ('e' :: (intDumps e ++ rest)),
                parseNumBody_intDumps_exp m e rest hstop]
      | str s =>
        rw [dumps_str, List.cons_append, pValStep_quote]
        have hshape : (escStr s.data ++ ['"']) ++ rest = escStr s.data ++ '"' :: rest := by
          rw [List.append_assoc]
          rfl
        rw [hshape]
        rw [parseStrAux_escape s.data rest _ (by
          have := escStr_length_ge s.data
          simp only [List.length_append, List.length_cons]
          omega)]
      | arr l =>
        cases l with
        | nil =>
          rw [show (dumps (J.arr []) ++ rest) = '[' :: ']' :: rest from by rw [dumps_arr]; rfl]
          rfl
        | cons x tl =>
          rw [dumps_arr, List.cons_append, pValStep_lbracket]
          have hshape : (dumpsElems (x :: tl) ++ [']']) ++ rest
              = dumpsElems (x :: tl) ++ ']' :: rest := by
            rw [List.append_assoc]
            rfl
          rw [hshape]
          obtain ⟨c1, cs1, hc1, hws1, hnb1, _, _⟩ := dumps_head_spec x
          obtain ⟨ds, hds⟩ : ∃ ds, dumpsElems (x :: tl) = c1 :: ds := by
            cases tl with
            | nil => exact ⟨cs1, by rw [show dumpsElems [x] = dumps x from rfl, hc1]⟩
            | cons y tl2 =>
              exact ⟨cs1 ++ ',' :: dumpsElems (y :: tl2),
                by rw [show dumpsElems (x :: y :: tl2)
                    = dumps x ++ ',' :: dumpsElems (y :: tl2) from rfl, hc1, List.cons_append]⟩
          rw [hds, List.cons_append, skipWs_cons_of c1 _ hws1]
          simp only []
          rw [if_neg hnb1, ← List.cons_append, ← hds]
          rw [WfJ] at hwf
          rw [ihe (x :: tl) rest hwf (by simp) (by
            rw [dumps_arr] at hlen
            simp only [List.length_cons, List.length_append] at hlen
            omega)]
      | obj kvs =>
        cases kvs with
        | nil =>
          rw [show (dumps (J.obj []) ++ rest) = lcb :: rcb :: rest from by rw [dumps_obj]; rfl]
          rfl
        | cons kv tl =>
          rw [dumps_obj, List.cons_append, pValStep_lbrace]
          have hshape : (dumpsMembers (kv :: tl) ++ [rcb]) ++ rest
              = dumpsMembers (kv :: tl) ++ rcb :: rest := by
            rw [List.append_assoc]
            rfl
          rw [hshape]
          obtain ⟨k, v⟩ := kv
          obtain ⟨ds, hds⟩ : ∃ ds, dumpsMembers ((k, v) :: tl) = '"' :: ds := by
            cases tl with
            | nil => exact ⟨escStr k.data ++ ('"' :: ':' :: dumps v), rfl⟩
            | cons kv2 tl2 =>
              exact ⟨(escStr k.data ++ ('"' :: ':' :: dumps v)) ++ ',' :: dumpsMembers (kv2 :: tl2),
                rfl⟩
          rw [hds, List.cons_append, skipWs_cons_of '"' _ (by decide)]
          simp only []
          rw [if_neg (by decide : ¬('"' : Char) = rcb), ← List.cons_append, ← hds]
          rw [WfJ] at hwf
          rw [ihm ((k, v) :: tl) [] rest hwf.2 (by simp) (by simpa using hwf.1) (by
            rw [dumps_obj] at hlen
            simp only [List.length_cons, List.length_append] at hlen
            omega)]
          rw [List.nil_append]
    · -- element lists
      intro l rest hwf hne hlen
      rw [helems]
      cases l with
      | nil => exact absurd rfl hne
      | cons x tl =>
        rw [WfL] at hwf
        cases tl with
        | nil =>
          rw [show dumpsElems [x] = dumps x from rfl]
          rw [pElemsStep_val (mkParsers g) _ x (']' :: rest)
            (ihv x (']' :: rest) hwf.1
              (by
                intro c hc
                simp only [List.head?_cons, Option.some.injEq] at hc
                subst hc
                exact Or.inr (Or.inl rfl))
              (by
                rw [show dumpsElems [x] = dumps x from rfl] at hlen
                omega))]
          rw [skipWs_cons_of ']' rest (by decide)]
          simp only []
          rw [if_neg (by decide : ¬(']' : Char) = ','), if_pos trivial]
        | cons y tl2 =>
          rw [show dumpsElems (x :: y :: tl2) = dumps x ++ ',' :: dumpsElems (y :: tl2) from rfl]
          have hshape : (dumps x ++ ',' :: dumpsElems (y :: tl2)) ++ ']' :: rest
              = dumps x ++ ',' :: (dumpsElems (y :: tl2) ++ ']' :: rest) := by
            rw [List.append_assoc]
            rfl
          rw [hshape]
          have hlen2 : (dumpsElems (x :: y :: tl2)).length + 1 < g + 1 := hlen
          rw [show dumpsElems (x :: y :: tl2) = dumps x ++ ',' :: dumpsElems (y :: tl2) from rfl]
            at hlen2
          simp only [List.length_append, List.length_cons] at hlen2
          have hp1 := dumps_length_pos x
          have hp2 := dumpsElems_pos y tl2
          rw [pElemsStep_val (mkParsers g) _ x (',' :: (dumpsElems (y :: tl2) ++ ']' :: rest))
            (ihv x (',' :: (dumpsElems (y :: tl2) ++ ']' :: rest)) hwf.1
              (by
                intro c hc
                simp only [List.head?_cons, Option.some.injEq] at hc
                subst hc
                exact Or.inl rfl)
              (by omega))]
          rw [skipWs_cons_of ',' _ (by decide)]
          simp only []
          rw [if_pos trivial]
          rw [ihe (y :: tl2) rest hwf.2 (by simp) (by omega)]
    · -- member lists
      intro kvs acc rest hwf hne hnd hlen
      rw [hmembs]
      cases kvs with
      | nil => exact absurd rfl hne
      | cons kv tl =>
        obtain ⟨k, v⟩ := kv
        rw [WfKV] at hwf
        have hfresh : ∀ kv2 ∈ acc, kv2.1 ≠ k := by
          intro kv2 hkv2 heq
          rw [List.nodup_append] at hnd
          exact hnd.2.2 (List.mem_map_of_mem Prod.fst hkv2) (by simp [heq])
        have hins : insertKV acc k v = acc ++ [(k, v)] := insertKV_fresh acc k v hfresh
        cases tl with
        | nil =>
          rw [show dumpsMembers [(k, v)] = '"' :: (escStr k.data ++ ('"' :: ':' :: dumps v))
            from rfl]
          have hshape : ('"' :: (escStr k.data ++ ('"' :: ':' :: dumps v))) ++ rcb :: rest
              = '"' :: (escStr k.data ++ '"' :: (':' :: (dumps v ++ rcb :: rest))) := by
            simp [List.append_assoc]
          rw [hshape]
          rw [pMembsStep_quote (mkParsers g) acc k.data _ _
            (parseStrAux_escape k.data (':' :: (dumps v ++ rcb :: rest)) _ (by
              have := escStr_length_ge k.data
              simp only [List.length_append, List.length_cons]
              omega))]
          rw [skipWs_cons_of ':' _ (by decide)]
          simp only []
          rw [if_pos trivial]
          rw [ihv v (rcb :: rest) hwf.1
            (by
              intro c hc
              simp only [List.head?_cons, Option.some.injEq] at hc
              subst hc
              exact Or.inr (Or.inr rfl))
            (by
              rw [show dumpsMembers [(k, v)] = '"' :: (escStr k.data ++ ('"' :: ':' :: dumps v))
                from rfl] at hlen
              simp only [List.length_cons, List.length_append] at hlen
              omega)]
          simp only []
          rw [skipWs_cons_of rcb rest (by decide)]
          simp only []
          rw [if_neg (by decide : ¬rcb = ','), if_pos trivial, hins]
        | cons kv2 tl2 =>
          rw [show dumpsMembers ((k, v) :: kv2 :: tl2)
              = ('"' :: (escStr k.data ++ ('"' :: ':' :: dumps v))) ++ ',' :: dumpsMembers (kv2 :: tl2)
            from rfl]
          have hshape : (('"' :: (escStr k.data ++ ('"' :: ':' :: dumps v)))
                ++ ',' :: dumpsMembers (kv2 :: tl2)) ++ rcb :: rest
              = '"' :: (escStr k.data ++ '"' ::
                  (':' :: (dumps v ++ ',' :: (dumpsMembers (kv2 :: tl2) ++ rcb :: rest)))) := by
            simp [List.append_assoc]
          rw [hshape]
          rw [pMembsStep_quote (mkParsers g) acc k.data _ _
            (parseStrAux_escape k.data
              (':' :: (dumps v ++ ',' :: (dumpsMembers (kv2 :: tl2) ++ rcb :: rest))) _ (by
              have := escStr_length_ge k.data
              simp only [List.length_append, List.length_cons]
              omega))]
          rw [skipWs_cons_of ':' _ (by decide)]
          simp only []
          rw [if_pos trivial]
          have hlen2 : (dumpsMembers ((k, v) :: kv2 :: tl2)).length + 1 < g + 1 := hlen
          rw [show dumpsMembers ((k, v) :: kv2 :: tl2)
              = ('"' :: (escStr k.data ++ ('"' :: ':' :: dumps v))) ++ ',' :: dumpsMembers (kv2 :: tl2)
            from rfl] at hlen2
          simp only [List.length_append, List.length_cons] at hlen2
          have hp1 := dumps_length_pos v
          rw [ihv v (',' :: (dumpsMembers (kv2 :: tl2) ++ rcb :: rest)) hwf.1
            (by
              intro c hc
              simp only [List.head?_cons, Option.some.injEq] at hc
              subst hc
              exact Or.inl rfl)
            (by omega)]
          simp only []
          rw [skipWs_cons_of ',' _ (by decide)]
          simp only []
          rw [if_pos trivial, hins]
          rw [ihm (kv2 :: tl2) (acc ++ [(k, v)]) rest hwf.2 (by simp)
            (by
              simp only [List.map_append, List.map_cons, List.map_nil, List.append_assoc] at hnd ⊢
              simpa using hnd)
            (by omega)]
          rw [List.append_assoc]
          rfl

/-- Soundness of the fueled parser for the well-formedness invariant:
every successfully parsed value has pairwise-distinct object keys at
every nesting level (Python `dict`s cannot hold duplicate keys). -/
theorem parse_wf : ∀ fuel : Nat,
    (∀ s v r, (mkParsers fuel).val s = some (v, r) → WfJ v) ∧
    (∀ s l r, (mkParsers fuel).elems s = some (l, r) → WfL l) ∧
    (∀ acc s kvs r, (mkParsers fuel).membs acc s = some (kvs, r) →
      (acc.map Prod.fst).Nodup → WfKV acc →
      (kvs.map Prod.fst).Nodup ∧ WfKV kvs) := by
  intro fuel
  induction fuel with
  | zero =>
    refine ⟨?_, ?_, ?_⟩
    · intro s v r h; exact Option.noConfusion h
    · intro s l r h; exact Option.noConfusion h
    · intro acc s kvs r h; exact Option.noConfusion h
  | succ g ih =>
    obtain ⟨ihv, ihe, ihm⟩ := ih
    have hval : (mkParsers (g + 1)).val = pValStep (mkParsers g) := rfl
    have helems : (mkParsers (g + 1)).elems = pElemsStep (mkParsers g) := rfl
    have hmembs : (mkParsers (g + 1)).membs = pMembsStep (mkParsers g) := rfl
    refine ⟨?_, ?_, ?_⟩
    · -- values
      intro s v r h
      rw [hval] at h
      simp only [pValStep] at h
      split at h
      · exact Option.noConfusion h
      · split at h
        · -- string
          split at h
          · simp only [Option.some.injEq, Prod.mk.injEq] at h
            obtain ⟨hv, -⟩ := h
            subst hv
            exact trivial
          · exact Option.noConfusion h
        · split at h
          · -- array
            split at h
            · split at h
              · -- empty array
                simp only [Option.some.injEq, Prod.mk.injEq] at h
                obtain ⟨hv, -⟩ := h
                subst hv
                exact trivial
              · split at h
                · next l' r' heq =>
                  simp only [Option.some.injEq, Prod.mk.injEq] at h
                  obtain ⟨hv, -⟩ := h
                  subst hv
                  exact ihe _ l' r' heq
                · exact Option.noConfusion h
            · exact Option.noConfusion h
          · split at h
            · -- object
              split at h
              · split at h
                · -- empty object
                  simp only [Option.some.injEq, Prod.mk.injEq] at h
                  obtain ⟨hv, -⟩ := h
                  subst hv
                  exact ⟨List.nodup_nil, trivial⟩
                · split at h
                  · next kvs' r' heq =>
                    simp only [Option.some.injEq, Prod.mk.injEq] at h
                    obtain ⟨hv, -⟩ := h
                    subst hv
                    exact ihm [] _ kvs' r' heq List.nodup_nil trivial
                  · exact Option.noConfusion h
              · exact Option.noConfusion h
            · split at h
              · -- true
                simp only [Option.some.injEq, Prod.mk.injEq] at h
                obtain ⟨hv, -⟩ := h
                subst hv
                exact trivial
              · split at h
                · simp only [Option.some.injEq, Prod.mk.injEq] at h
                  obtain ⟨hv, -⟩ := h
                  subst hv
                  exact trivial
                · split at h
                  · simp only [Option.some.injEq, Prod.mk.injEq] at h
                    obtain ⟨hv, -⟩ := h
                    subst hv
                    exact trivial
                  · split at h
                    · simp only [Option.some.injEq, Prod.mk.injEq] at h
                      obtain ⟨hv, -⟩ := h
                      subst hv
                      exact trivial
                    · split at h
                      · simp only [Option.some.injEq, Prod.mk.injEq] at h
                        obtain ⟨hv, -⟩ := h
                        subst hv
                        exact trivial
                      · split at h
                        · simp only [Option.some.injEq, Prod.mk.injEq] at h
                          obtain ⟨hv, -⟩ := h
                          subst hv
                          exact trivial
                        · split at h
                          · -- number
                            simp only [Option.some.injEq, Prod.mk.injEq] at h
                            obtain ⟨hv, -⟩ := h
                            subst hv
                            exact trivial
                          · exact Option.noConfusion h
    · -- element lists
      intro s l r h
      rw [helems] at h
      simp only [pElemsStep] at h
      split at h
      · exact Option.noConfusion h
      · next v r1 heqv =>
        split at h
        · exact Option.noConfusion h
        · split at h
          · split at h
            · next l' r3 heql =>
              simp only [Option.some.injEq, Prod.mk.injEq] at h
              obtain ⟨hl, -⟩ := h
              subst hl
              exact ⟨ihv _ v r1 heqv, ihe _ l' r3 heql⟩
            · exact Option.noConfusion h
          · split at h
            · simp only [Option.some.injEq, Prod.mk.injEq] at h
              obtain ⟨hl, -⟩ := h
              subst hl
              exact ⟨ihv _ v r1 heqv, trivial⟩
            · exact Option.noConfusion h
    · -- member lists
      intro acc s kvs r h hnd hwa
      rw [hmembs] at h
      simp only [pMembsStep] at h
      split at h
      · exact Option.noConfusion h
      · split at h
        · split at h
          · exact Option.noConfusion h
          · next k r1 heqk =>
            split at h
            · exact Option.noConfusion h
            · split at h
              · split at h
                · exact Option.noConfusion h
                · next v r3 heqv =>
                  have hnd2 : ((insertKV acc ⟨k⟩ v).map Prod.fst).Nodup :=
                    insertKV_nodup acc _ v hnd
                  have hwa2 : WfKV (insertKV acc ⟨k⟩ v) :=
                    insertKV_wfkv acc _ v hwa (ihv _ v r3 heqv)
                  split at h
                  · exact Option.noConfusion h
                  · split at h
                    · exact ihm _ _ kvs r h hnd2 hwa2
                    · split at h
                      · simp only [Option.some.injEq, Prod.mk.injEq] at h
                        obtain ⟨hl, -⟩ := h
                        subst hl
                        exact ⟨hnd2, hwa2⟩
                      · exact Option.noConfusion h
              · exact Option.noConfusion h
        · exact Option.noConfusion h

/-- `json.loads` only produces values with duplicate-free object keys. -/
theorem loads_wf (s : List Char) (v : J) (h : loads s = some v) : WfJ v := by
  rw [loads] at h
  split at h
  · next v' r heq =>
    split at h
    · simp only [Option.some.injEq] at h
      subst h
      exact (parse_wf (s.length + 1)).1 s _ r heq
    · exact Option.noConfusion h
  · exact Option.noConfusion h

/-- Round-trip through the serializer: `json.loads` recovers any
well-formed value from its `json.dumps` form. -/
theorem loads_dumps (v : J) (hwf : WfJ v) : loads (dumps v) = some v := by
  have h : parseVal ((dumps v).length + 1) (dumps v) = some (v, []) := by
    have h2 := (parsers_roundtrip ((dumps v).length + 1)).1 v [] hwf
      (by intro c hc; exact Option.noConfusion hc) (by omega)
    rw [List.append_nil] at h2
    exact h2
  rw [loads, h]
  rfl

/-- Whatever list `_extract_json_array` returns came out of `json.loads`,
so it satisfies the well-formedness invariant. -/
theorem extract_wf (text : List Char) (A : List J)
    (h : extract_json_array text = some A) : WfL A := by
  rw [extract_json_array] at h
  split at h
  · next l heq =>
    simp only [Option.some.injEq] at h
    subst h
    exact loads_wf _ _ heq
  · split at h
    · exact Option.noConfusion h
    · split at h
      · next l heq =>
        simp only [Option.some.injEq] at h
        subst h
        exact loads_wf _ _ heq
      · exact Option.noConfusion h

/-- `json.dumps` of an array starts with the bracket. -/
theorem dumpsArr_head (A : List J) : (dumpsArr A).head? = some '[' := by
  rw [dumpsArr, dumps_arr]
  rfl

/-- `json.dumps` of an array ends with the bracket. -/
theorem dumpsArr_getLast (A : List J) : (dumpsArr A).getLast? = some ']' := by
  rw [dumpsArr, dumps_arr]
  rw [show '[' :: (dumpsElems A ++ [']']) = ('[' :: dumpsElems A) ++ [']'] from rfl]
  exact List.getLast?_concat _

/-- C6 counterexample: on the input `["```"]` the
extraction succeeds with the one-element array holding the
triple-backtick string, but re-extracting its JSON re-serialization
yields the empty string instead (the markdown-fence removal deletes the
three backticks from inside the re-serialized string literal), so
`extract_json_array` is not idempotent on its own output. -/
theorem C6_counterexample :
    extract_json_array "[\"\\u0060\\u0060\\u0060\"]".data =
      some [J.str ⟨[bt, bt, bt]⟩] ∧
    extract_json_array (dumpsArr [J.str ⟨[bt, bt, bt]⟩]) = some [J.str ""] ∧
    (⟨[bt, bt, bt]⟩ : String) ≠ "" :=
  ⟨rfl, rfl, by decide⟩

/-- C6: amended idempotence of the response parser on its own output.
For every input text on which `_extract_json_array` succeeds with array
`A`, provided the JSON re-serialization of `A` contains no triple
backtick (the markdown fence that the first regex pass deletes),
extracting from that re-serialization succeeds and yields exactly `A`. -/
theorem C6_roundtrip_amended (text : List Char) (A : List J)
    (hx : extract_json_array text = some A)
    (hf : containsSub fence3 (dumpsArr A) = false) :
    extract_json_array (dumpsArr A) = some A := by
  have hwf : WfL A := extract_wf text A hx
  have hld : loads (dumpsArr A) = some (J.arr A) := loads_dumps (J.arr A) hwf
  have hstrip : stripFences (dumpsArr A) = dumpsArr A := stripFences_id _ hf
  have hps : pyStrip (dumpsArr A) = dumpsArr A :=
    pyStrip_id _ '[' ']' (dumpsArr_head A) (by decide) (dumpsArr_getLast A) (by decide)
  rw [extract_json_array, hstrip, hps, hld]

/-- Witness for the amended C6 theorem at the concrete input
`["A"]`, whose re-serialization is fence-free. -/
theorem C6_roundtrip_amended_witness :
    extract_json_array "[\"A\"]".data = some [J.str "A"] ∧
    containsSub fence3 (dumpsArr [J.str "A"]) = false ∧
    extract_json_array (dumpsArr [J.str "A"]) = some [J.str "A"] :=
  ⟨rfl, rfl, C6_roundtrip_amended "[\"A\"]".data [J.str "A"] rfl rfl⟩

end Souli
